import Mathlib

/-!
A shallow embedding of `hiclass/_calibration/VennAbersCalibrator.py` and the
multiclass dispatch of `hiclass/_calibration/Calibrator.py`, together with
theorems checking the specification's claims about them.

Conventions of the embedding:
* numpy float arrays are modelled as `List ℚ` (exact arithmetic); the CVAP
  fusion step (`scipy.stats.gmean`) needs real exponentiation and is modelled
  over `ℝ`.
* Python exceptions are modelled with `Except CalibError`: the `assert`
  statements map to `CalibError.invalidInput` (the spec's InvalidInputError),
  sklearn's NotFittedError to `CalibError.notFitted`, and a Python
  `AttributeError` (reading an attribute that `fit` has not assigned yet) to
  `CalibError.attributeError`.
* a Python list used as a stack (`append`/`pop` at the end) is modelled as a
  Lean `List` whose head is the Python `stack[-1]` (the top).
* division by zero is total in `ℚ`/`ℝ` (`x / 0 = 0`); the source would raise
  or produce `inf`/`nan` there.  Every claim settled below is insensitive to
  this choice, and it is called out where it matters (claim C9).
-/

namespace VennAbers

section

/- The core `Rat` arithmetic operations are `@[irreducible]`, which blocks
`decide`/`rfl` evaluation of the embedded (fully computable) calibrator on
concrete inputs; restore default transparency for them in this file. -/
attribute [local semireducible] Rat.mul Rat.inv Rat.add Rat.sub

/-- A planar point with rational coordinates: one row of the numpy `csd` array. -/
abbrev Point := ℚ × ℚ

/-- Pointwise addition, the source's `point_addition`. -/
def point_addition (p q : Point) : Point := (p.1 + q.1, p.2 + q.2)

/-- Pointwise subtraction, the source's `point_subtraction`. -/
def point_subtraction (p q : Point) : Point := (p.1 - q.1, p.2 - q.2)

/-- `np.cross` of two plane vectors (the z-component of the 3D cross product). -/
def cross2 (a b : Point) : ℚ := a.1 * b.2 - a.2 * b.1

/-- `slope(top, next_to_top)` from the source. -/
def slope (top ntt : Point) : ℚ := (ntt.2 - top.2) / (ntt.1 - top.1)

/-- `at_or_above(p, cur_slope, top, next_to_top)` from the source (the
`next_to_top` argument is unused by the Python body). -/
def at_or_above (p : Point) (curSlope : ℚ) (top : Point) : Bool :=
  decide (p.2 ≥ top.2 + curSlope * (p.1 - top.1))

/-- `non_left_angle_turn(next_to_top, top, p_i)` from the source. -/
def non_left_angle_turn (ntt top p : Point) : Bool :=
  decide (cross2 (point_subtraction top ntt) (point_subtraction p top) ≤ 0)

/-- `non_right_angle_turn(next_to_top, top, p_i)` from the source. -/
def non_right_angle_turn (ntt top p : Point) : Bool :=
  decide (cross2 (point_subtraction top ntt) (point_subtraction p top) ≥ 0)

/-- `while len(stack) > 1 and bad(stack[-1], stack[-2]): stack.pop()`.
All four pop loops of the source are instances of this scheme (with `bad`
instantiated to the appropriate turn test). -/
def popWhile2 (bad : Point → Point → Bool) : List Point → List Point
  | a :: b :: rest => if bad a b then popWhile2 bad (b :: rest) else a :: b :: rest
  | st => st

def origin : Point := (0, 0)

/-- `initialize_f1_corners(csd)`: seed the stack with `csd[0], csd[1]`, then for
each further point pop while `non_left_angle_turn(stack[-2], stack[-1], p)` and
push the point. -/
def init_f1_corners (csd : List Point) : List Point :=
  match csd with
  | c0 :: c1 :: rest =>
      rest.foldl (fun st p => p :: popWhile2 (fun top next => non_left_angle_turn next top p) st)
        [c1, c0]
  | _ => []

/-- `initialize_f0_corners(csd)`: seed the stack with `csd[-1], csd[-2]`, then
scan the remaining points right to left popping on `non_right_angle_turn`. -/
def init_f0_corners (csd : List Point) : List Point :=
  match csd.reverse with
  | cl :: cl1 :: rest =>
      rest.foldl (fun st p => p :: popWhile2 (fun top next => non_right_angle_turn next top p) st)
        [cl1, cl]
  | _ => []

/-- Loop state of `compute_f1` / `compute_f0`: the output array `F`, the
(mutated in place) `csd` list and the stack. -/
structure EnvState where
  F : List ℚ
  csd : List Point
  st : List Point
deriving DecidableEq

/-- One iteration of the `for i in range(2, k+2)` loop of `compute_f1`. -/
def f1Step (s : EnvState) (i : ℕ) : EnvState :=
  let top := s.st.getD 0 origin
  let ntt := s.st.getD 1 origin
  let sl := slope top ntt
  let F := s.F.set (i - 1) sl
  let p := point_subtraction
    (point_addition (s.csd.getD (i - 2) origin) (s.csd.getD i origin)) (s.csd.getD (i - 1) origin)
  let csd := s.csd.set (i - 1) p
  if at_or_above p sl top then ⟨F, csd, s.st⟩
  else ⟨F, csd, p :: popWhile2 (fun top next => non_left_angle_turn p top next) s.st.tail⟩

/-- `compute_f1(prev_stack, csd)` (the source first reverses `prev_stack` into
the working stack, then iterates `i = 2, …, k+1`). -/
def compute_f1 (prevStack : List Point) (csd : List Point) (k : ℕ) : List ℚ :=
  ((List.range' 2 k).foldl f1Step ⟨List.replicate (k + 1) 0, csd, prevStack.reverse⟩).F

/-- One iteration of the `for i in range(k, 0, -1)` loop of `compute_f0`. -/
def f0Step (s : EnvState) (i : ℕ) : EnvState :=
  let top := s.st.getD 0 origin
  let ntt := s.st.getD 1 origin
  let sl := slope top ntt
  let F := s.F.set i sl
  let p := point_subtraction
    (point_addition (s.csd.getD (i - 1) origin) (s.csd.getD (i + 1) origin)) (s.csd.getD i origin)
  let csd := s.csd.set i p
  if at_or_above p sl top then ⟨F, csd, s.st⟩
  else ⟨F, csd, p :: popWhile2 (fun top next => non_right_angle_turn p top next) s.st.tail⟩

/-- `compute_f0(prev_stack, csd)`. -/
def compute_f0 (prevStack : List Point) (csd : List Point) (k : ℕ) : List ℚ :=
  (((List.range' 1 k).reverse).foldl f0Step ⟨List.replicate (k + 1) 0, csd, prevStack.reverse⟩).F

/-- The sort order of `np.lexsort([y, scores])`: ascending by score, label as
tie-break. -/
def pairLe (a b : ℚ × ℚ) : Prop := a.1 < b.1 ∨ (a.1 = b.1 ∧ a.2 ≤ b.2)

instance : DecidableRel pairLe := fun a b =>
  inferInstanceAs (Decidable (a.1 < b.1 ∨ (a.1 = b.1 ∧ a.2 ≤ b.2)))

/-- `np.where(y == positive_label, 1, 0)` with `positive_label = 1`. -/
def mapLabel (v : ℚ) : ℚ := if v = 1 then 1 else 0

/-- The attributes a fitted `_InductiveVennAbersCalibrator` stores. -/
structure FittedIVAP where
  k_distinct : ℕ
  unique_elements : List ℚ
  F0 : List ℚ
  F1 : List ℚ
deriving DecidableEq

/-- Body of `_InductiveVennAbersCalibrator.fit` after label mapping and
sorting: `sorted` is the list of (score, 0/1 label) pairs in `(score, label)`
ascending order (`ordered_calibration_scores` zipped with
`ordered_calibration_labels`).  Builds the cumulative sum diagram, the two
sentinel-augmented copies `csd_1` / `csd_0`, seeds the two corner stacks and
runs `compute_f1` / `compute_f0`. -/
def ivapFitSorted (sorted : List (ℚ × ℚ)) : FittedIVAP :=
  let ocs := sorted.map Prod.fst
  let unique_elements := ocs.dedup
  let k := unique_elements.length
  -- compute_csd: per unique score, its weight w and label rate y = (Σ labels)/w;
  -- csd rows are the running sums of (w, y*w).
  let counts := unique_elements.map fun s => ocs.count s
  let yrate := unique_elements.map fun s =>
    ((sorted.filter fun q => q.1 = s).map Prod.snd).sum / ((ocs.count s : ℕ) : ℚ)
  let csd := List.scanl point_addition origin
    ((counts.zip yrate).map fun wr => ((wr.1 : ℚ), wr.2 * (wr.1 : ℚ)))
  let csd_0 := csd ++ [((csd.getLastD origin).1 + 1, (csd.getLastD origin).2)]
  let csd_1 := (-1, -1) :: csd
  ⟨k, unique_elements, compute_f0 (init_f0_corners csd_0) csd_0 k,
    compute_f1 (init_f1_corners csd_1) csd_1 k⟩

/-- The error taxonomy of the embedding (see the header comment). -/
inductive CalibError
  | invalidInput
  | notFitted
  | attributeError
deriving DecidableEq

/-- `_InductiveVennAbersCalibrator.fit(y, scores)`: check that `y` has at most
two distinct values (`assert len(unique_labels) <= 2`), map the positive label
to 1 and all else to 0, sort the (score, label) pairs and run the envelope
construction. -/
def ivapFit (y scores : List ℚ) : Except CalibError FittedIVAP :=
  if y.dedup.length ≤ 2 then
    .ok (ivapFitSorted (List.insertionSort pairLe (scores.zip (y.map mapLabel))))
  else .error .invalidInput

/-- `np.searchsorted(a, s, side="left")` on a sorted array: the number of
elements strictly below `s`. -/
def searchsorted_left (a : List ℚ) (s : ℚ) : ℕ := a.countP fun x => decide (x < s)

/-- `np.searchsorted(a, s, side="right")` on a sorted array: the number of
elements at or below `s`. -/
def searchsorted_right (a : List ℚ) (s : ℚ) : ℕ := a.countP fun x => decide (x ≤ s)

/-- The body of `predict_proba` for one test score on a fitted IVAP. -/
def ivapPredictProba1 (c : FittedIVAP) (s : ℚ) : ℚ :=
  let lower := searchsorted_left c.unique_elements s
  let upper := searchsorted_right c.unique_elements.dropLast s + 1
  let p0 := c.F0.getD lower 0
  let p1 := c.F1.getD upper 0
  p1 / (1 - p0 + p1)

/-- The body of `predict_intervall` for one test score on a fitted IVAP. -/
def ivapPredictIntervall1 (c : FittedIVAP) (s : ℚ) : ℚ × ℚ :=
  let lower := searchsorted_left c.unique_elements s
  let upper := searchsorted_right c.unique_elements.dropLast s + 1
  (c.F0.getD lower 0, c.F1.getD upper 0)

/-- The mutable state of an `_InductiveVennAbersCalibrator` instance:
`__init__` sets `fitted = False` and assigns no other attribute; `fit` sets
`model` (i.e. `unique_elements`, `F0`, `F1`) and `fitted = True`. -/
structure IVAPState where
  fitted : Bool
  model : Option FittedIVAP
deriving DecidableEq

/-- A freshly constructed `_InductiveVennAbersCalibrator()`. -/
def ivapInit : IVAPState := ⟨false, none⟩

/-- `_InductiveVennAbersCalibrator.predict_proba(scores)`: raises
NotFittedError when `fitted` is false, otherwise reads the fitted attributes
and maps the per-score body over the input. -/
def ivapStatePredictProba (st : IVAPState) (scores : List ℚ) :
    Except CalibError (List ℚ) :=
  if st.fitted = false then .error .notFitted
  else match st.model with
    | none => .error .attributeError
    | some c => .ok (scores.map (ivapPredictProba1 c))

/-- `_InductiveVennAbersCalibrator.predict_intervall(scores)`: the source has
NO fitted check here; on an unfitted instance the read of
`self.unique_elements` raises AttributeError. -/
def ivapStatePredictIntervall (st : IVAPState) (scores : List ℚ) :
    Except CalibError (List (ℚ × ℚ)) :=
  match st.model with
  | none => .error .attributeError
  | some c => .ok (scores.map (ivapPredictIntervall1 c))

/-- One stratified fold of `_CrossVennAbersCalibrator.fit` as the core loop
sees it.  The stratified splitter and the per-fold estimator are external
collaborators (sklearn), so the loop is modelled as consuming, per fold, the
training labels, the calibration labels and the calibration scores the
freshly trained estimator produced (`model.predict_proba(X_cal)[:, 1]`). -/
structure Fold where
  y_train : List ℚ
  y_cal : List ℚ
  cal_scores : List ℚ
deriving DecidableEq

/-- The fold loop of `_CrossVennAbersCalibrator.fit`: a fold whose training or
calibration split has fewer than 2 distinct labels is skipped (`continue`);
otherwise an IVAP is fitted on the calibration split and appended. -/
def cvapFitLoop : List Fold → List FittedIVAP → Except CalibError (List FittedIVAP)
  | [], acc => .ok acc
  | f :: rest, acc =>
    if f.y_train.dedup.length < 2 ∨ f.y_cal.dedup.length < 2 then cvapFitLoop rest acc
    else match ivapFit f.y_cal f.cal_scores with
      | .error e => .error e
      | .ok c => cvapFitLoop rest (acc ++ [c])

/-- The mutable state of a `_CrossVennAbersCalibrator` instance: `__init__`
sets `fitted = False`; `fit` assigns `ivaps` and sets `fitted = True`. -/
structure CVAPState where
  fitted : Bool
  ivaps : Option (List FittedIVAP)
deriving DecidableEq

/-- A freshly constructed `_CrossVennAbersCalibrator(...)`. -/
def cvapInit : CVAPState := ⟨false, none⟩

/-- `_CrossVennAbersCalibrator.fit(y, scores, X)`: first
`assert len(np.unique(y)) == 2`, then the fold loop; `fitted` is set to True
unconditionally afterwards (also when every fold was skipped). -/
def cvapFit (y : List ℚ) (folds : List Fold) : Except CalibError CVAPState :=
  if y.dedup.length = 2 then
    match cvapFitLoop folds [] with
    | .error e => .error e
    | .ok l => .ok ⟨true, some l⟩
  else .error .invalidInput

/-- `scipy.stats.gmean`: the geometric mean of a list of reals. -/
noncomputable def gmean (l : List ℝ) : ℝ := l.prod ^ ((l.length : ℝ)⁻¹)

/-- The fitted path of `_CrossVennAbersCalibrator.predict_proba(scores)`:
collect each retained IVAP's `predict_intervall(scores)`; if no IVAP was
retained return `np.zeros_like(scores)`; otherwise fuse the per-fold columns
`p0`, `p1` by `gmean(p1) / (gmean(1 - p0) + gmean(p1))` (geometric mean taken
across folds, per score). -/
noncomputable def cvapPredictFitted (ivaps : List FittedIVAP) (scores : List ℚ) : List ℝ :=
  let res := ivaps.map fun c => scores.map (ivapPredictIntervall1 c)
  if res.length = 0 then scores.map fun _ => 0
  else
    (List.range scores.length).map fun j =>
      let p1gm := gmean (res.map fun row => (((row.getD j (0, 0)).2 : ℚ) : ℝ))
      p1gm / (gmean (res.map fun row => 1 - (((row.getD j (0, 0)).1 : ℚ) : ℝ)) + p1gm)

/-- `_CrossVennAbersCalibrator.predict_proba(scores)` with the fitted check. -/
noncomputable def cvapStatePredictProba (st : CVAPState) (scores : List ℚ) :
    Except CalibError (List ℝ) :=
  if st.fitted = false then .error .notFitted
  else match st.ivaps with
    | none => .error .attributeError
    | some l => .ok (cvapPredictFitted l scores)

/-- Row renormalization of `_Calibrator.predict_proba` (multiclass branch):
`probabilities /= probabilities.sum(axis=1, keepdims=True)`.  In the source a
zero row sum produces `nan` entries; in this model division by zero gives 0 —
in both semantics such a row does not sum to 1. -/
noncomputable def normalizeRow (row : List ℝ) : List ℝ := row.map fun x => x / row.sum

/-- The un-normalized probability matrix of the multiclass branch of
`_Calibrator.predict_proba`, row by row: column `idx` is
`self.calibrators[idx].predict_proba(test_scores[:, idx])`.  The per-class
binary calibrators (fitted earlier by `_Calibrator.fit`) are passed as
functions from a score column to a probability column. -/
noncomputable def multiclassRawRows (cals : List (List ℚ → List ℝ))
    (test_scores : List (List ℚ)) : List (List ℝ) :=
  let score_splits := (List.range cals.length).map fun i =>
    test_scores.map fun row => row.getD i 0
  let cols := (cals.zip score_splits).map fun cs => cs.1 cs.2
  (List.range test_scores.length).map fun r => cols.map fun col => col.getD r 0

/-- The multiclass branch of `_Calibrator.predict_proba`: stack the per-class
calibrated columns and renormalize every row by its sum. -/
noncomputable def multiclassPredictProba (cals : List (List ℚ → List ℝ))
    (test_scores : List (List ℚ)) : List (List ℝ) :=
  (multiclassRawRows cals test_scores).map normalizeRow

/-! ### Claim C7: predict before fit -/

/-- C7 counterexample: on a freshly constructed (unfitted) IVAP the source's
`predict_intervall` does not raise NotFittedError — it has no fitted check and
fails on the attribute read of `self.unique_elements` instead.  So not every
predict-family call on an unfitted calibrator fails with NotFittedError. -/
theorem claim7_cex :
    ivapStatePredictIntervall ivapInit [(1 : ℚ)/2] = .error .attributeError ∧
    (Except.error .attributeError : Except CalibError (List (ℚ × ℚ))) ≠
      .error .notFitted := by
  refine ⟨rfl, ?_⟩
  simp

/-- C7 amended: every predict-family call on an unfitted calibrator (IVAP or
CVAP) fails and never returns a value; `predict_proba` fails with
NotFittedError, but IVAP `predict_intervall` fails with AttributeError (the
source omits the fitted check there). -/
theorem claim7_amended (sI : IVAPState) (sC : CVAPState) (qs : List ℚ)
    (hIf : sI.fitted = false) (hIm : sI.model = none) (hCf : sC.fitted = false) :
    ivapStatePredictProba sI qs = .error .notFitted ∧
    cvapStatePredictProba sC qs = .error .notFitted ∧
    ivapStatePredictIntervall sI qs = .error .attributeError := by
  refine ⟨?_, ?_, ?_⟩
  · unfold ivapStatePredictProba
    rw [hIf]
    simp
  · unfold cvapStatePredictProba
    rw [hCf]
    simp
  · unfold ivapStatePredictIntervall
    rw [hIm]

/-- C7 witness: the amended claim applied to freshly constructed instances. -/
theorem claim7_witness :
    ivapStatePredictProba ivapInit [(1 : ℚ)] = .error .notFitted ∧
    cvapStatePredictProba cvapInit [(1 : ℚ)] = .error .notFitted ∧
    ivapStatePredictIntervall ivapInit [(1 : ℚ)] = .error .attributeError :=
  claim7_amended ivapInit cvapInit [(1 : ℚ)] rfl rfl rfl

/-! ### Claim C8: binary label validation and label mapping -/

/-- C8: IVAP `fit` fails (the assert on the number of distinct labels, the
spec's InvalidInputError) exactly when more than 2 distinct label values are
present; with at most 2 distinct values the validation passes and the fit
proceeds on the labels with the designated positive label (1) mapped to 1 and
every other label value mapped to 0. -/
theorem claim8_label_check (y scores : List ℚ) :
    (2 < y.dedup.length → ivapFit y scores = .error .invalidInput) ∧
    (y.dedup.length ≤ 2 →
      ivapFit y scores =
        .ok (ivapFitSorted (List.insertionSort pairLe (scores.zip (y.map mapLabel))))) ∧
    mapLabel 1 = 1 ∧ ∀ v : ℚ, v ≠ 1 → mapLabel v = 0 := by
  refine ⟨?_, ?_, rfl, ?_⟩
  · intro h
    unfold ivapFit
    rw [if_neg (by omega)]
  · intro h
    unfold ivapFit
    rw [if_pos h]
  · intro v hv
    unfold mapLabel
    rw [if_neg hv]

/-- C8 witness: three distinct labels are rejected, two are accepted. -/
theorem claim8_witness :
    ivapFit [(0 : ℚ), 1, 2, 3] [1, 2, 3, 4] = .error .invalidInput ∧
    ivapFit [(0 : ℚ), 1] [1, 2] =
      .ok (ivapFitSorted (List.insertionSort pairLe
        (([(1 : ℚ), 2]).zip (([(0 : ℚ), 1]).map mapLabel)))) :=
  ⟨(claim8_label_check [(0 : ℚ), 1, 2, 3] [1, 2, 3, 4]).1 (by decide),
   (claim8_label_check [(0 : ℚ), 1] [1, 2]).2.1 (by decide)⟩

/-! ### Claim C10: CVAP label-count precheck vs IVAP single-class tolerance -/

/-- C10: CVAP `fit` fails whenever the label vector does not have exactly 2
distinct values, and does so for every possible fold decomposition (the check
precedes the fold loop, so a single-class calibration set never reaches the
fold-skipping logic); IVAP `fit`, by contrast, accepts a single-class label
vector without error. -/
theorem claim10_cvap_precheck (y y' scores : List ℚ) (folds : List Fold)
    (h : y.dedup.length ≠ 2) (h1 : y'.dedup.length = 1) :
    cvapFit y folds = .error .invalidInput ∧ ∃ c, ivapFit y' scores = .ok c := by
  constructor
  · unfold cvapFit
    rw [if_neg h]
  · unfold ivapFit
    rw [if_pos (by omega)]
    exact ⟨_, rfl⟩

/-- C10 witness: single-class labels are rejected by CVAP `fit` (for an
arbitrary fold) and accepted by IVAP `fit`. -/
theorem claim10_witness :
    cvapFit [(0 : ℚ), 0] [⟨[0], [0], [1]⟩] = .error .invalidInput ∧
    ∃ c, ivapFit [(5 : ℚ), 5] [(1 : ℚ)/2, (3 : ℚ)/4] = .ok c :=
  claim10_cvap_precheck [(0 : ℚ), 0] [(5 : ℚ), 5] [(1 : ℚ)/2, (3 : ℚ)/4]
    [⟨[0], [0], [1]⟩] (by decide) (by decide)

/-! ### Claim C6: fold skipping and the zero-usable-folds outcome -/

/-- If every fold lacks label diversity, the fold loop of CVAP `fit` skips
them all and returns the accumulator unchanged. -/
theorem cvapFitLoop_skip_all (folds : List Fold) (acc : List FittedIVAP)
    (h : ∀ g ∈ folds, g.y_train.dedup.length < 2 ∨ g.y_cal.dedup.length < 2) :
    cvapFitLoop folds acc = .ok acc := by
  induction folds with
  | nil => rfl
  | cons f rest ih =>
    unfold cvapFitLoop
    rw [if_pos (h f (List.mem_cons_self f rest))]
    exact ih fun g hg => h g (List.mem_cons_of_mem f hg)

/-- C6 counterexample: a calibration set with both labels whose single fold
has a single-class training split.  Zero folds are usable, yet `fit` does not
fail: it completes, stores no IVAP and sets `fitted = True`.  This refutes
"fit fails if and only if zero folds are usable". -/
theorem claim6_cex :
    cvapFit [(0 : ℚ), 1] [⟨[0, 0], [0, 1], [1/2, 3/4]⟩] = .ok ⟨true, some []⟩ := by
  rfl

/-- C6 amended: every fold whose training or calibration split has fewer than
2 distinct labels is skipped entirely (nothing is stored for it and the loop
continues with the remaining folds), but `fit` does not fail when zero folds
are usable: provided the overall label vector has exactly 2 distinct values it
completes successfully with an empty list of retained IVAPs.  (CVAP `fit`
fails only on the label-count assert, settled separately in claim C10.) -/
theorem claim6_amended (y : List ℚ) (folds : List Fold) (f : Fold) (rest : List Fold)
    (acc : List FittedIVAP)
    (hy : y.dedup.length = 2)
    (hf : f.y_train.dedup.length < 2 ∨ f.y_cal.dedup.length < 2)
    (hall : ∀ g ∈ folds, g.y_train.dedup.length < 2 ∨ g.y_cal.dedup.length < 2) :
    cvapFitLoop (f :: rest) acc = cvapFitLoop rest acc ∧
    cvapFit y folds = .ok ⟨true, some []⟩ := by
  constructor
  · conv_lhs => unfold cvapFitLoop
    rw [if_pos hf]
  · unfold cvapFit
    rw [if_pos hy, cvapFitLoop_skip_all folds [] hall]

/-- C6 witness: the amended claim at a concrete two-label calibration set with
one unusable fold. -/
theorem claim6_witness :
    cvapFitLoop [⟨[(1 : ℚ), 1], [0, 1], [1/2]⟩] [] = cvapFitLoop [] [] ∧
    cvapFit [(0 : ℚ), 1] [⟨[(1 : ℚ), 1], [0, 1], [1/2]⟩] = .ok ⟨true, some []⟩ :=
  claim6_amended [(0 : ℚ), 1] [⟨[(1 : ℚ), 1], [0, 1], [1/2]⟩]
    ⟨[(1 : ℚ), 1], [0, 1], [1/2]⟩ [] [] (by decide) (by decide)
    (by
      intro g hg
      simp only [List.mem_singleton] at hg
      subst hg
      decide)

/-! ### Claim C9: multiclass simplex property -/

theorem sum_map_div (l : List ℝ) (s : ℝ) : (l.map fun x => x / s).sum = l.sum / s := by
  induction l with
  | nil => simp
  | cons a t ih => simp [ih, add_div]

/-- A renormalized row sums to exactly 1 when its original sum is nonzero. -/
theorem normalizeRow_sum (row : List ℝ) (h : row.sum ≠ 0) : (normalizeRow row).sum = 1 := by
  unfold normalizeRow
  rw [sum_map_div, div_self h]

/-- C9 counterexample: three per-class calibrators that are zero-fold CVAPs
(each returns the all-zero vector, the documented degenerate CVAP fallback)
give an un-normalized row of zeros; the renormalization divides by the zero
row sum (`nan` in the source's float semantics, 0 in this model) and the
output row does not sum to 1 within 1e-6. -/
theorem claim9_cex :
    ¬ |(((multiclassPredictProba
        [cvapPredictFitted [], cvapPredictFitted [], cvapPredictFitted []]
        [[(1 : ℚ)/2, 1/3, 1/4]]).getD 0 []).sum - 1)| ≤ 1/1000000 := by
  have hz : multiclassPredictProba
      [cvapPredictFitted [], cvapPredictFitted [], cvapPredictFitted []]
      [[(1 : ℚ)/2, 1/3, 1/4]] = [normalizeRow [0, 0, 0]] := by
    simp [multiclassPredictProba, multiclassRawRows, cvapPredictFitted,
      List.range_succ]
  rw [hz]
  simp [normalizeRow]
  norm_num

/-- C9 amended: every output row of the multiclass `predict_proba` whose
un-normalized per-class calibrated scores have a nonzero sum sums to exactly 1
(hence within the 1e-6 tolerance); a zero pre-normalization row sum (reachable
e.g. when every per-class calibrator is a zero-fold CVAP) instead yields an
invalid row, so the simplex property does not hold for every input. -/
theorem claim9_amended (cals : List (List ℚ → List ℝ)) (ts : List (List ℚ)) (r : ℕ)
    (h : ((multiclassRawRows cals ts).getD r []).sum ≠ 0) :
    |(((multiclassPredictProba cals ts).getD r []).sum - 1)| ≤ 1/1000000 := by
  unfold multiclassPredictProba
  rw [List.getD_eq_getElem?_getD, List.getElem?_map]
  rw [List.getD_eq_getElem?_getD] at h
  cases hr : (multiclassRawRows cals ts)[r]? with
  | none =>
    rw [hr] at h
    simp at h
  | some row =>
    rw [hr] at h
    simp only [Option.getD_some] at h
    simp only [Option.map_some', Option.getD_some]
    rw [normalizeRow_sum row h]
    norm_num

/-- C9 witness: a nonzero-sum row, normalized, is within tolerance of 1. -/
theorem claim9_witness :
    |(((multiclassPredictProba [fun ss => ss.map fun q => (q : ℝ)]
        [[(1 : ℚ)/2]]).getD 0 []).sum - 1)| ≤ 1/1000000 := by
  refine claim9_amended [fun ss => ss.map fun q => (q : ℝ)] [[(1 : ℚ)/2]] 0 ?_
  simp [multiclassRawRows, List.range_succ]

/-! ### Claim C4: order-independence of IVAP fit -/

instance : IsTrans (ℚ × ℚ) pairLe :=
  ⟨by
    rintro a b c (h1 | ⟨e1, l1⟩) (h2 | ⟨e2, l2⟩)
    · exact Or.inl (h1.trans h2)
    · exact Or.inl (e2 ▸ h1)
    · exact Or.inl (by rw [e1]; exact h2)
    · exact Or.inr ⟨e1.trans e2, l1.trans l2⟩⟩

instance : IsTotal (ℚ × ℚ) pairLe :=
  ⟨by
    intro a b
    rcases lt_trichotomy a.1 b.1 with h | h | h
    · exact Or.inl (Or.inl h)
    · rcases le_total a.2 b.2 with h2 | h2
      · exact Or.inl (Or.inr ⟨h, h2⟩)
      · exact Or.inr (Or.inr ⟨h.symm, h2⟩)
    · exact Or.inr (Or.inl h)⟩

instance : IsAntisymm (ℚ × ℚ) pairLe :=
  ⟨by
    rintro a b (h1 | ⟨e1, l1⟩) (h2 | ⟨e2, l2⟩)
    · exact absurd (h1.trans h2) (lt_irrefl _)
    · exact absurd (e2 ▸ h1) (lt_irrefl _)
    · exact absurd (e1 ▸ h2) (lt_irrefl _)
    · exact Prod.ext e1 (le_antisymm l1 l2)⟩

theorem zip_map_swap (y scores : List ℚ) :
    (y.zip scores).map (fun p => (p.2, mapLabel p.1)) = scores.zip (y.map mapLabel) := by
  induction y generalizing scores with
  | nil => simp
  | cons a t ih =>
    cases scores with
    | nil => simp
    | cons b u => simp [ih]

/-- C4: fitting an IVAP is order-independent — permuting the (label, score)
pairs of the calibration set yields the identical fit result (the same
`unique_elements`, `F0` and `F1`), because the fit first sorts the pairs by
(score, label) and every later step is a function of the sorted sequence. -/
theorem claim4_order_independent (y scores y' scores' : List ℚ)
    (h : y.length = scores.length) (h' : y'.length = scores'.length)
    (hp : (y.zip scores).Perm (y'.zip scores')) :
    ivapFit y scores = ivapFit y' scores' := by
  have hy : y.Perm y' := by
    have hm := hp.map Prod.fst
    rwa [List.map_fst_zip y scores h.le, List.map_fst_zip y' scores' h'.le] at hm
  have hdedup : y.dedup.length = y'.dedup.length := hy.dedup.length_eq
  have hmid : (scores.zip (y.map mapLabel)).Perm (scores'.zip (y'.map mapLabel)) := by
    rw [← zip_map_swap, ← zip_map_swap]
    exact hp.map _
  have hsorted : List.insertionSort pairLe (scores.zip (y.map mapLabel)) =
      List.insertionSort pairLe (scores'.zip (y'.map mapLabel)) :=
    List.eq_of_perm_of_sorted
      (((List.perm_insertionSort pairLe _).trans hmid).trans
        (List.perm_insertionSort pairLe _).symm)
      (List.sorted_insertionSort pairLe _) (List.sorted_insertionSort pairLe _)
  unfold ivapFit
  rw [hdedup, hsorted]

/-- C4 witness: a concrete calibration set and its reversal fit to the same
result. -/
theorem claim4_witness :
    ivapFit [(0 : ℚ), 0, 1, 1] [(1 : ℚ)/10, 2/10, 2/10, 9/10] =
      ivapFit [(1 : ℚ), 1, 0, 0] [(9 : ℚ)/10, 2/10, 2/10, 1/10] :=
  claim4_order_independent [(0 : ℚ), 0, 1, 1] [(1 : ℚ)/10, 2/10, 2/10, 9/10]
    [(1 : ℚ), 1, 0, 0] [(9 : ℚ)/10, 2/10, 2/10, 1/10] (by decide) (by decide)
    (by
      exact (List.reverse_perm
        (([(0 : ℚ), 0, 1, 1]).zip [(1 : ℚ)/10, 2/10, 2/10, 9/10])).symm)

/-! ### Claim C2: the predict_proba lookup formula -/

/-- On a `(· ≤ ·)`-sorted list, the number of elements strictly below `s`
(numpy's left insertion index) is the index of the first element `≥ s`. -/
theorem sorted_countP_lt (s : ℚ) (a : List ℚ) (ha : List.Sorted (· ≤ ·) a) :
    (a.countP fun x => decide (x < s)) = a.findIdx fun x => decide (s ≤ x) := by
  induction a with
  | nil => rfl
  | cons x t ih =>
    rw [List.sorted_cons] at ha
    rw [List.countP_cons, List.findIdx_cons]
    by_cases h : s ≤ x
    · have htail : (t.countP fun z => decide (z < s)) = 0 :=
        List.countP_eq_zero.mpr fun z hz => by
          simpa using not_lt.mpr (h.trans (ha.1 z hz))
      simp [htail, h, not_lt.mpr h]
    · have hlt : x < s := not_le.mp h
      simp [h, hlt, ih ha.2]

/-- On a `(· ≤ ·)`-sorted list, the number of elements at or below `s`
(numpy's right insertion index) is the index of the first element `> s`. -/
theorem sorted_countP_le (s : ℚ) (a : List ℚ) (ha : List.Sorted (· ≤ ·) a) :
    (a.countP fun x => decide (x ≤ s)) = a.findIdx fun x => decide (s < x) := by
  induction a with
  | nil => rfl
  | cons x t ih =>
    rw [List.sorted_cons] at ha
    rw [List.countP_cons, List.findIdx_cons]
    by_cases h : s < x
    · have htail : (t.countP fun z => decide (z ≤ s)) = 0 :=
        List.countP_eq_zero.mpr fun z hz => by
          simpa using not_le.mpr (h.trans_le (ha.1 z hz))
      simp [htail, h, not_le.mpr h]
    · have hle : x ≤ s := not_lt.mp h
      simp [h, hle, ih ha.2]

/-- `pairLe` orders primarily by score. -/
theorem pairLe_fst_le {a b : ℚ × ℚ} (h : pairLe a b) : a.1 ≤ b.1 := by
  rcases h with h | ⟨e, _⟩
  · exact h.le
  · exact e.le

/-- The `unique_elements` stored by a successful IVAP fit are sorted
ascending (sorted scores, deduplicated). -/
theorem fit_unique_sorted (y scores : List ℚ) (c : FittedIVAP)
    (h : ivapFit y scores = .ok c) : List.Sorted (· ≤ ·) c.unique_elements := by
  unfold ivapFit at h
  split at h
  · injection h with h
    subst h
    show List.Sorted (· ≤ ·)
      (((List.insertionSort pairLe
        (scores.zip (y.map mapLabel))).map Prod.fst).dedup)
    refine List.Pairwise.sublist (List.dedup_sublist _) ?_
    exact (List.sorted_insertionSort pairLe _).map _ fun a b hab => pairLe_fst_le hab
  · exact absurd h (by simp)

/-- C2: on any fitted IVAP, `predict_proba` returns
`F1[upper] / (1 - F0[lower] + F1[upper])` for each test score `s`, where
`lower` is the leftmost insertion index of `s` into the sorted unique
calibration scores (the first index whose score is `≥ s`) and `upper` is one
plus the rightmost insertion index of `s` into the unique scores excluding
the last element (the first all-but-last index whose score is `> s`). -/
theorem claim2_predict_formula (y scores qs : List ℚ) (c : FittedIVAP)
    (h : ivapFit y scores = .ok c) :
    ivapStatePredictProba ⟨true, some c⟩ qs = .ok (qs.map fun s =>
      c.F1.getD ((c.unique_elements.dropLast.findIdx fun x => decide (s < x)) + 1) 0 /
        (1 - c.F0.getD (c.unique_elements.findIdx fun x => decide (s ≤ x)) 0 +
          c.F1.getD ((c.unique_elements.dropLast.findIdx fun x => decide (s < x)) + 1) 0)) := by
  have hs : List.Sorted (· ≤ ·) c.unique_elements := fit_unique_sorted y scores c h
  have hs' : List.Sorted (· ≤ ·) c.unique_elements.dropLast :=
    List.Pairwise.sublist (List.dropLast_sublist _) hs
  unfold ivapStatePredictProba
  simp only [Bool.true_eq_false, if_false]
  refine congrArg Except.ok (List.map_congr_left fun s _ => ?_)
  unfold ivapPredictProba1 searchsorted_left searchsorted_right
  rw [sorted_countP_lt s _ hs, sorted_countP_le s _ hs']

/-- C2 witness: the formula at the spec's worked example
(`scores = [0.1, 0.2, 0.2, 0.9]`, `labels = [0, 0, 1, 1]`, query `0.2`). -/
theorem claim2_witness :
    ivapStatePredictProba
      ⟨true, some ⟨3, [(1 : ℚ)/10, 1/5, 9/10], [0, 0, 1/3, 1/2], [0, 1/2, 2/3, 1]⟩⟩
      [(1 : ℚ)/5] =
    .ok ([(1 : ℚ)/5].map fun s =>
      List.getD [(0 : ℚ), 1/2, 2/3, 1]
          ((List.findIdx (fun x => decide (s < x)) (List.dropLast [(1 : ℚ)/10, 1/5, 9/10])) + 1) 0 /
        (1 - List.getD [(0 : ℚ), 0, 1/3, 1/2]
            (List.findIdx (fun x => decide (s ≤ x)) [(1 : ℚ)/10, 1/5, 9/10]) 0 +
          List.getD [(0 : ℚ), 1/2, 2/3, 1]
            ((List.findIdx (fun x => decide (s < x)) (List.dropLast [(1 : ℚ)/10, 1/5, 9/10])) + 1) 0)) :=
  claim2_predict_formula [0, 0, 1, 1] [(1 : ℚ)/10, 2/10, 2/10, 9/10] [(1 : ℚ)/5]
    ⟨3, [(1 : ℚ)/10, 1/5, 9/10], [0, 0, 1/3, 1/2], [0, 1/2, 2/3, 1]⟩ (by rfl)

/-! ### Claim C5: CVAP geometric-mean fusion and the zero-fold fallback -/

/-- C5: a fitted CVAP with retained fold IVAPs returns, per test score,
`geomean(p1) / (geomean(1 - p0) + geomean(p1))` where the `(p0, p1)` run over
the per-fold `predict_intervall` outputs; with zero retained folds it returns
an all-zero vector of the input's shape instead of failing. -/
theorem claim5_cvap_fusion (l : List FittedIVAP) (qs : List ℚ) :
    (l = [] → cvapStatePredictProba ⟨true, some l⟩ qs = .ok (qs.map fun _ => 0)) ∧
    (l ≠ [] → cvapStatePredictProba ⟨true, some l⟩ qs = .ok (qs.map fun s =>
      gmean (l.map fun c => (((ivapPredictIntervall1 c s).2 : ℚ) : ℝ)) /
        (gmean (l.map fun c => 1 - (((ivapPredictIntervall1 c s).1 : ℚ) : ℝ)) +
          gmean (l.map fun c => (((ivapPredictIntervall1 c s).2 : ℚ) : ℝ))))) := by
  constructor
  · rintro rfl
    rfl
  · intro hne
    show Except.ok (cvapPredictFitted l qs) = _
    unfold cvapPredictFitted
    rw [if_neg (by simpa using hne)]
    refine congrArg Except.ok (List.ext_getElem (by simp) fun i h1 h2 => ?_)
    have hi : i < qs.length := by simpa using h2
    simp only [List.getElem_map, List.getElem_range, List.map_map]
    have hrow : ∀ c : FittedIVAP,
        ((qs.map (ivapPredictIntervall1 c)).getD i (0, 0)) = ivapPredictIntervall1 c qs[i] := by
      intro c
      rw [List.getD_eq_getElem _ _ (by simpa using hi), List.getElem_map]
    simp only [Function.comp_def, hrow]

/-- C5 witness: both branches at concrete states — a zero-fold CVAP returns
the all-zero vector, and a one-fold CVAP returns the fused formula. -/
theorem claim5_witness :
    cvapStatePredictProba ⟨true, some []⟩ [(1 : ℚ)/2, 1/3] =
      .ok ([(1 : ℚ)/2, 1/3].map fun _ => 0) ∧
    cvapStatePredictProba
        ⟨true, some [⟨1, [(1 : ℚ)/2], [0, 0], [0, 1/2]⟩]⟩ [(1 : ℚ)/4] =
      .ok ([(1 : ℚ)/4].map fun s =>
        gmean ([⟨1, [(1 : ℚ)/2], [0, 0], [0, 1/2]⟩].map
            fun c => (((ivapPredictIntervall1 c s).2 : ℚ) : ℝ)) /
          (gmean ([⟨1, [(1 : ℚ)/2], [0, 0], [0, 1/2]⟩].map
              fun c => 1 - (((ivapPredictIntervall1 c s).1 : ℚ) : ℝ)) +
            gmean ([⟨1, [(1 : ℚ)/2], [0, 0], [0, 1/2]⟩].map
              fun c => (((ivapPredictIntervall1 c s).2 : ℚ) : ℝ)))) :=
  ⟨(claim5_cvap_fusion [] [(1 : ℚ)/2, 1/3]).1 rfl,
   (claim5_cvap_fusion [⟨1, [(1 : ℚ)/2], [0, 0], [0, 1/2]⟩] [(1 : ℚ)/4]).2 (by simp)⟩

/-! ### Claims C1 and C3: the envelope invariants

The remainder of the development proves, for every fitted IVAP, that `F0` and
`F1` are non-decreasing with `F0[i] ≤ F1[i]` (claim C1), and that the
predicted point probability lies in the predicted interval (claim C3).

The two `compute_f*` loops mutate `csd` in place, but the mutation telescopes:
in `compute_f1` the point processed at iteration `i` is `A (i-1) - (1,1)`
(where `A j` is the j-th cumulative-sum point, `A 0 = (0,0)`), and in
`compute_f0` it is `A (i-1) + (1,0)`.  Each loop is therefore equivalent to a
pure fold over a list of shifted points, for which we can state stack
invariants: the stack is strictly convex with strictly increasing (f1) or
decreasing (f0) x, its tail consists of original cumulative-sum points, every
processed point lies at-or-above the line through the current first edge, and
the recorded first-edge slope is monotone across iterations. -/

/-- Evaluation at `x` of the line through `P` with slope `sl`. -/
def lineY (P : Point) (sl x : ℚ) : ℚ := P.2 + sl * (x - P.1)

/-- Signed vertical deviation of `q` from the line through `P` with slope `sl`. -/
def dev (P : Point) (sl : ℚ) (q : Point) : ℚ := q.2 - lineY P sl q.1

theorem slope_eq_add_dev (P : Point) (sl : ℚ) (u v : Point) (h : u.1 ≠ v.1) :
    slope u v = sl + (dev P sl v - dev P sl u) / (v.1 - u.1) := by
  unfold slope dev lineY
  have hne : v.1 - u.1 ≠ 0 := sub_ne_zero.mpr (Ne.symm h)
  field_simp
  ring

/-- A chord from an on-line point rightward to an at-or-above point has slope
at least the line's slope. -/
theorem slope_ge_of_dev (P : Point) (sl : ℚ) (u v : Point) (hx : u.1 < v.1)
    (hu : dev P sl u ≤ 0) (hv : 0 ≤ dev P sl v) : sl ≤ slope u v := by
  rw [slope_eq_add_dev P sl u v hx.ne]
  have : (0 : ℚ) ≤ (dev P sl v - dev P sl u) / (v.1 - u.1) :=
    div_nonneg (by linarith) (by linarith)
  linarith

/-- A chord from an at-or-above point rightward to an on-line point has slope
at most the line's slope. -/
theorem slope_le_of_dev (P : Point) (sl : ℚ) (u v : Point) (hx : u.1 < v.1)
    (hu : 0 ≤ dev P sl u) (hv : dev P sl v ≤ 0) : slope u v ≤ sl := by
  rw [slope_eq_add_dev P sl u v hx.ne]
  have : (dev P sl v - dev P sl u) / (v.1 - u.1) ≤ 0 :=
    div_nonpos_of_nonpos_of_nonneg (by linarith) (by linarith)
  linarith

theorem slope_gt_of_dev (P : Point) (sl : ℚ) (u v : Point) (hx : u.1 < v.1)
    (hu : dev P sl u < 0) (hv : 0 ≤ dev P sl v) : sl < slope u v := by
  rw [slope_eq_add_dev P sl u v hx.ne]
  have : (0 : ℚ) < (dev P sl v - dev P sl u) / (v.1 - u.1) :=
    div_pos (by linarith) (by linarith)
  linarith

/-- `cross2 (v - u) (w - v) > 0` (a strict left turn) says exactly that the
chord slopes increase, for x-ordered points. -/
theorem cross2_pos_iff_slope_lt (u v w : Point) (h1 : u.1 < v.1) (h2 : v.1 < w.1) :
    0 < cross2 (point_subtraction v u) (point_subtraction w v) ↔ slope u v < slope v w := by
  unfold cross2 point_subtraction slope
  dsimp only
  rw [div_lt_div_iff (by linarith) (by linarith)]
  constructor <;> intro h <;> nlinarith

theorem cross2_nonneg_iff_slope_le (u v w : Point) (h1 : u.1 < v.1) (h2 : v.1 < w.1) :
    0 ≤ cross2 (point_subtraction v u) (point_subtraction w v) ↔ slope u v ≤ slope v w := by
  unfold cross2 point_subtraction slope
  dsimp only
  rw [div_le_div_iff (by linarith) (by linarith)]
  constructor <;> intro h <;> nlinarith

/-- The boolean `at_or_above` unfolded to the `dev` form. -/
theorem at_or_above_iff_dev (p : Point) (sl : ℚ) (top : Point) :
    at_or_above p sl top = true ↔ 0 ≤ dev top sl p := by
  unfold at_or_above dev lineY
  simp only [decide_eq_true_eq, ge_iff_le]
  constructor <;> intro h <;> linarith

/-- `non_left_angle_turn` in slope form for x-ordered arguments. -/
theorem non_left_angle_turn_iff (a b c : Point) (h1 : a.1 < b.1) (h2 : b.1 < c.1) :
    non_left_angle_turn a b c = true ↔ slope b c ≤ slope a b := by
  unfold non_left_angle_turn
  simp only [decide_eq_true_eq]
  have := cross2_pos_iff_slope_lt a b c h1 h2
  constructor
  · intro h
    by_contra hc
    push_neg at hc
    exact absurd (this.mpr hc) (by linarith)
  · intro h
    by_contra hc
    push_neg at hc
    exact absurd (this.mp hc) (by linarith)

theorem non_right_angle_turn_iff (a b c : Point) (h1 : b.1 < a.1) (h2 : c.1 < b.1) :
    non_right_angle_turn a b c = true ↔ slope b a ≤ slope c b := by
  unfold non_right_angle_turn
  simp only [decide_eq_true_eq]
  have key : 0 ≤ cross2 (point_subtraction b a) (point_subtraction c b) ↔
      slope b a ≤ slope c b := by
    unfold cross2 point_subtraction slope
    dsimp only
    rw [div_le_div_iff (by linarith) (by linarith)]
    constructor <;> intro h <;> nlinarith
  exact key

/-- Strict convexity of a head-first polyline: every consecutive triple makes
a strict left turn. -/
def Convex3 : List Point → Prop
  | u :: v :: w :: rest =>
      0 < cross2 (point_subtraction v u) (point_subtraction w v) ∧ Convex3 (v :: w :: rest)
  | _ => True

theorem convex3_tail : ∀ {S : List Point}, Convex3 S → Convex3 S.tail
  | [], _ => trivial
  | [_], _ => trivial
  | [_, _], _ => trivial
  | _ :: _ :: _ :: _, h => h.2

theorem convex3_suffix {S L : List Point} (h : Convex3 S) (hs : L <:+ S) : Convex3 L := by
  obtain ⟨pre, rfl⟩ := hs
  induction pre with
  | nil => exact h
  | cons a l ih => exact ih (convex3_tail h)

/-- `dev` is monotone along an edge whose slope is at least `sl`. -/
theorem dev_mono (P : Point) (sl : ℚ) {a b : Point} (hx : a.1 < b.1)
    (hsl : sl ≤ slope a b) : dev P sl a ≤ dev P sl b := by
  have hb : sl * (b.1 - a.1) ≤ b.2 - a.2 := by
    have := (le_div_iff (by linarith : (0 : ℚ) < b.1 - a.1)).mp hsl
    linarith [this]
  unfold dev lineY
  nlinarith

/-- In an x-increasing, strictly convex chain every edge's slope is at least
any lower bound of the first edge's slope. -/
theorem chain_edges_ge : ∀ (S : List Point) (σ : ℚ),
    List.Chain' (fun u v : Point => u.1 < v.1) S → Convex3 S →
    (∀ u v rest, S = u :: v :: rest → σ ≤ slope u v) →
    List.Chain' (fun u v : Point => σ ≤ slope u v) S
  | [], _, _, _, _ => List.chain'_nil
  | [_], _, _, _, _ => List.chain'_singleton _
  | [u, v], σ, _, _, hfirst => (List.chain'_cons.mpr ⟨hfirst u v [] rfl, List.chain'_singleton _⟩)
  | u :: v :: w :: rest, σ, hx, hc, hfirst => by
    rw [List.chain'_cons] at hx ⊢
    have hx2 := List.chain'_cons.mp hx.2
    have h1 : σ ≤ slope u v := hfirst u v (w :: rest) rfl
    refine ⟨h1, chain_edges_ge (v :: w :: rest) σ hx.2 hc.2 ?_⟩
    rintro u' v' rest' h'
    injection h' with h'1 h'2
    injection h'2 with h'3 h'4
    subst h'1; subst h'3; subst h'4
    have := (cross2_pos_iff_slope_lt u v w hx.1 hx2.1).mp hc.1
    linarith

/-- In an x-increasing, strictly convex chain, every element lies at-or-above
the line through the first two elements. -/
theorem chain_above (P : Point) (σ : ℚ) : ∀ (S : List Point),
    List.Chain' (fun u v : Point => u.1 < v.1) S →
    List.Chain' (fun u v : Point => σ ≤ slope u v) S →
    (∀ h ∈ S.head?, 0 ≤ dev P σ h) →
    ∀ q ∈ S, 0 ≤ dev P σ q
  | [], _, _, _, q, hq => absurd hq (List.not_mem_nil q)
  | a :: l, hx, hsl, hhead, q, hq => by
    rcases List.mem_cons.mp hq with rfl | hq'
    · exact hhead q rfl
    · cases l with
      | nil => exact absurd hq' (List.not_mem_nil q)
      | cons b l' =>
        have hab : 0 ≤ dev P σ b := by
          have h0 : 0 ≤ dev P σ a := hhead a rfl
          have := dev_mono P σ (List.chain'_cons.mp hx).1 (List.chain'_cons.mp hsl).1
          linarith
        refine chain_above P σ (b :: l') (List.chain'_cons.mp hx).2
          (List.chain'_cons.mp hsl).2 ?_ q hq'
        intro h hh
        simp only [List.head?_cons, Option.mem_def, Option.some.injEq] at hh
        subst hh
        exact hab

theorem popWhile2_suffix (bad : Point → Point → Bool) :
    ∀ (l : List Point), popWhile2 bad l <:+ l
  | [] => List.suffix_refl _
  | [a] => List.suffix_refl _
  | a :: b :: rest => by
    unfold popWhile2
    split
    · exact (popWhile2_suffix bad (b :: rest)).trans (List.suffix_cons a _)
    · exact List.suffix_refl _

theorem popWhile2_ne_nil (bad : Point → Point → Bool) :
    ∀ (l : List Point), l ≠ [] → popWhile2 bad l ≠ []
  | [], h => absurd rfl h
  | [a], _ => by simp [popWhile2]
  | a :: b :: rest, _ => by
    unfold popWhile2
    split
    · exact popWhile2_ne_nil bad (b :: rest) (by simp)
    · simp


theorem dev_self (P : Point) (sl : ℚ) : dev P sl P = 0 := by
  unfold dev lineY
  ring

theorem dev_second {u v : Point} (h : u.1 ≠ v.1) : dev u (slope u v) v = 0 := by
  unfold dev lineY slope
  have : v.1 - u.1 ≠ 0 := sub_ne_zero.mpr (Ne.symm h)
  field_simp

theorem lineY_diff (P : Point) (sl x x' : ℚ) :
    lineY P sl x - lineY P sl x' = sl * (x - x') := by
  unfold lineY
  ring

theorem cross_eq_den_mul_dev (p a b : Point) (h : a.1 ≠ b.1) :
    cross2 (point_subtraction a p) (point_subtraction b a) =
      (b.1 - a.1) * dev a (slope a b) p := by
  unfold cross2 point_subtraction dev lineY slope
  have : b.1 - a.1 ≠ 0 := sub_ne_zero.mpr (Ne.symm h)
  field_simp
  ring

theorem at_or_above_false_iff (p : Point) (sl : ℚ) (top : Point) :
    at_or_above p sl top = false ↔ dev top sl p < 0 := by
  rw [← Bool.not_eq_true, at_or_above_iff_dev]
  push_neg
  rfl

theorem non_left_angle_turn_false {p a b : Point}
    (h : non_left_angle_turn p a b = false) :
    0 < cross2 (point_subtraction a p) (point_subtraction b a) := by
  unfold non_left_angle_turn at h
  simpa [not_le] using h

theorem non_left_angle_turn_true_of_cross {p a b : Point}
    (h : cross2 (point_subtraction a p) (point_subtraction b a) ≤ 0) :
    non_left_angle_turn p a b = true := by
  unfold non_left_angle_turn
  simpa using h

theorem popWhile2_stop (bad : Point → Point → Bool) :
    ∀ (l : List Point) (a b : Point) (r : List Point),
      popWhile2 bad l = a :: b :: r → bad a b = false
  | [], a, b, r, h => by simp [popWhile2] at h
  | [x], a, b, r, h => by simp [popWhile2] at h
  | x :: y :: rest, a, b, r, h => by
    unfold popWhile2 at h
    split at h
    · exact popWhile2_stop bad (y :: rest) a b r h
    · rename_i hbad
      injection h with h1 h2
      injection h2 with h3 h4
      subst h1
      subst h3
      simpa using hbad

theorem getLast?_of_suffix {L M : List Point} (h : L <:+ M) (hne : L ≠ []) :
    M.getLast? = L.getLast? := by
  obtain ⟨pre, rfl⟩ := h
  exact List.getLast?_append_of_ne_nil pre hne

/-- One step of the (mutation-free reformulation of the) `compute_f1` loop:
the stack update performed for an incoming point `p`. -/
def f1PassStep (st : List Point) (p : Point) : List Point :=
  if at_or_above p (slope (st.headD origin) (st.getD 1 origin)) (st.headD origin) then st
  else p :: popWhile2 (fun a b => non_left_angle_turn p a b) st.tail

/-- The sequence of first-edge slopes the `compute_f1` loop records while
processing a list of points (each slope is read before its point is
processed). -/
def f1Slopes (st : List Point) : List Point → List ℚ
  | [] => []
  | p :: ps => slope (st.headD origin) (st.getD 1 origin) :: f1Slopes (f1PassStep st p) ps

/-- The shape of the cumulative sum diagram of a fitted IVAP, abstracted:
`Af j` is the j-th CSD point; x starts at the origin and advances by at least
1 per step (the per-score counts), y is non-decreasing with increments
bounded by the x-increments (the per-score positive-label counts). -/
structure CsdHyp (Af : ℕ → Point) (k : ℕ) : Prop where
  x0 : Af 0 = origin
  hx : ∀ j < k, (Af j).1 + 1 ≤ (Af (j + 1)).1
  hy : ∀ j < k, (Af j).2 ≤ (Af (j + 1)).2
  hyx : ∀ j < k, (Af (j + 1)).2 - (Af j).2 ≤ (Af (j + 1)).1 - (Af j).1

/-- The shifted point `A j - (1,1)` processed by `compute_f1` at step `j`. -/
def Bf (Af : ℕ → Point) (j : ℕ) : Point := point_subtraction (Af j) (1, 1)

namespace CsdHyp

theorem x_le {Af : ℕ → Point} {k : ℕ} (h : CsdHyp Af k) {a b : ℕ}
    (hab : a ≤ b) (hb : b ≤ k) : (Af a).1 ≤ (Af b).1 := by
  induction b with
  | zero =>
    have : a = 0 := by omega
    subst this
    exact le_refl _
  | succ n ih =>
    rcases Nat.lt_or_ge a (n + 1) with hlt | hge
    · have h1 := h.hx n (by omega)
      have h2 := ih (by omega) (by omega)
      linarith
    · have : a = n + 1 := by omega
      subst this
      exact le_refl _

theorem x_lt {Af : ℕ → Point} {k : ℕ} (h : CsdHyp Af k) {a b : ℕ}
    (hab : a < b) (hb : b ≤ k) : (Af a).1 + 1 ≤ (Af b).1 := by
  have h1 := h.hx a (by omega)
  have h2 := h.x_le (Nat.succ_le_of_lt hab) hb
  linarith

theorem y_le {Af : ℕ → Point} {k : ℕ} (h : CsdHyp Af k) {a b : ℕ}
    (hab : a ≤ b) (hb : b ≤ k) : (Af a).2 ≤ (Af b).2 := by
  induction b with
  | zero =>
    have : a = 0 := by omega
    subst this
    exact le_refl _
  | succ n ih =>
    rcases Nat.lt_or_ge a (n + 1) with hlt | hge
    · have h1 := h.hy n (by omega)
      have h2 := ih (by omega) (by omega)
      linarith
    · have : a = n + 1 := by omega
      subst this
      exact le_refl _

theorem yx_le {Af : ℕ → Point} {k : ℕ} (h : CsdHyp Af k) {a b : ℕ}
    (hab : a ≤ b) (hb : b ≤ k) :
    (Af b).2 - (Af a).2 ≤ (Af b).1 - (Af a).1 := by
  induction b with
  | zero =>
    have : a = 0 := by omega
    subst this
    simp
  | succ n ih =>
    rcases Nat.lt_or_ge a (n + 1) with hlt | hge
    · have h1 := h.hyx n (by omega)
      have h2 := ih (by omega) (by omega)
      linarith
    · have : a = n + 1 := by omega
      subst this
      simp

/-- A chord between two CSD points has slope at most 1. -/
theorem chord_le_one {Af : ℕ → Point} {k : ℕ} (h : CsdHyp Af k) {a b : ℕ}
    (hab : a < b) (hb : b ≤ k) : slope (Af a) (Af b) ≤ 1 := by
  unfold slope
  have hd := h.x_lt hab hb
  have hn := h.yx_le hab.le hb
  rw [div_le_one (by linarith)]
  linarith

/-- A chord between two CSD points has nonnegative slope. -/
theorem chord_nonneg {Af : ℕ → Point} {k : ℕ} (h : CsdHyp Af k) {a b : ℕ}
    (hab : a < b) (hb : b ≤ k) : 0 ≤ slope (Af a) (Af b) := by
  unfold slope
  have hd := h.x_lt hab hb
  have hn := h.y_le hab.le hb
  exact div_nonneg (by linarith) (by linarith)

end CsdHyp

/-- In the pop loop of a `compute_f1` push, every stack prefix whose head is
not strictly right of the incoming point `p` keeps popping, so the final head
is strictly right of `p`.  The hypotheses are the chain facts of the stack the
loop started from (`p` strictly below the line `(H0, σ)`, every stack point
at-or-above it, edge slopes at least `σ`, x increasing, and the protected last
element strictly right of `p`). -/
theorem pop_head_gt (p H0 : Point) (σ : ℚ) (S : List Point)
    (above : ∀ q ∈ S, 0 ≤ dev H0 σ q)
    (edges : List.Chain' (fun u v : Point => σ ≤ slope u v) S)
    (xinc : List.Chain' (fun u v : Point => u.1 < v.1) S)
    (devp : dev H0 σ p < 0)
    (lastx : ∀ z, S.getLast? = some z → p.1 < z.1) :
    ∀ L, L <:+ S → L ≠ [] →
      p.1 < ((popWhile2 (fun a b => non_left_angle_turn p a b) L).headD origin).1
  | [], hsuf, hne => absurd rfl hne
  | [x], hsuf, _ => by
    have hlast : S.getLast? = some x := by
      rw [getLast?_of_suffix hsuf (by simp)]
      rfl
    simpa [popWhile2] using lastx x hlast
  | a :: b :: r, hsuf, _ => by
    unfold popWhile2
    split
    · exact pop_head_gt p H0 σ S above edges xinc devp lastx (b :: r)
        (((List.suffix_cons a (b :: r)).trans hsuf)) (by simp)
    · rename_i hbad
      simp only [List.headD_cons]
      by_contra hle
      push_neg at hle
      refine hbad ?_
      have hxab : a.1 < b.1 := (List.chain'_cons.mp (xinc.suffix hsuf)).1
      have hslab : σ ≤ slope a b := (List.chain'_cons.mp (edges.suffix hsuf)).1
      have ha : a ∈ S := hsuf.mem (List.mem_cons_self a (b :: r))
      have deva := above a ha
      have hdev : dev a (slope a b) p < 0 := by
        have expand : σ * (p.1 - H0.1) - σ * (a.1 - H0.1) = σ * (p.1 - a.1) := by ring
        have hmul : σ * (p.1 - a.1) ≤ slope a b * (p.1 - a.1) :=
          mul_le_mul_of_nonneg_right hslab (by linarith)
        unfold dev lineY at devp deva ⊢
        nlinarith
      refine non_left_angle_turn_true_of_cross ?_
      rw [cross_eq_den_mul_dev p a b hxab.ne]
      have : (0 : ℚ) < b.1 - a.1 := by linarith
      nlinarith

/-- The loop invariant of the (reformulated) `compute_f1` loop, holding at
the moment just before `Bf Af t` is processed. -/
structure Inv1 (Af : ℕ → Point) (k t : ℕ) (S : List Point) : Prop where
  len : 2 ≤ S.length
  xinc : List.Chain' (fun u v : Point => u.1 < v.1) S
  convex : Convex3 S
  tailA : ∀ q ∈ S.tail, ∃ m, 1 ≤ m ∧ m ≤ k ∧ q = Af m
  lastA : S.getLast? = some (Af k)
  headx : (S.headD origin).1 ≤ (Af (t - 1)).1 - 1
  secondx : t ≤ k → (Af t).1 ≤ (S.getD 1 origin).1
  bAbove : ∀ a < t,
    0 ≤ dev (S.headD origin) (slope (S.headD origin) (S.getD 1 origin)) (Bf Af a)

theorem dev_shift (P : Point) (sl : ℚ) (q : Point) :
    dev P sl (point_subtraction q (1, 1)) = dev P sl q - 1 + sl := by
  unfold dev lineY point_subtraction
  dsimp only
  ring

theorem exists_two (S : List Point) (h : 2 ≤ S.length) : ∃ a b r, S = a :: b :: r := by
  match S, h with
  | a :: b :: r, _ => exact ⟨a, b, r, rfl⟩

/-- The step theorem for `compute_f1`: processing the point `Bf Af t`
preserves the loop invariant and does not decrease the first-edge slope. -/
theorem inv1_step {Af : ℕ → Point} {k : ℕ} (hcsd : CsdHyp Af k) (t : ℕ)
    (ht1 : 1 ≤ t) (htk : t ≤ k) (S : List Point) (hS : Inv1 Af k t S) :
    Inv1 Af k (t + 1) (f1PassStep S (Bf Af t)) ∧
    slope (S.headD origin) (S.getD 1 origin) ≤
      slope ((f1PassStep S (Bf Af t)).headD origin)
        ((f1PassStep S (Bf Af t)).getD 1 origin) := by
  obtain ⟨H0, H1, rest, rfl⟩ := exists_two S hS.len
  have hxinc := hS.xinc
  have hconv := hS.convex
  have htailA := hS.tailA
  have hlast := hS.lastA
  have hheadx := hS.headx
  have hsecondx := hS.secondx
  have hbAbove := hS.bAbove
  simp only [List.headD_cons, List.getD_cons_succ, List.getD_cons_zero] at hheadx hsecondx hbAbove
  have hx01 : H0.1 < H1.1 := (List.chain'_cons.mp hxinc).1
  have hfirst : ∀ u v rest', (H0 :: H1 :: rest) = u :: v :: rest' →
      slope H0 H1 ≤ slope u v := by
    intro u v r' hh
    injection hh with h1 h2
    injection h2 with h3 h4
    subst h1
    subst h3
    exact le_refl _
  have hedges := chain_edges_ge (H0 :: H1 :: rest) (slope H0 H1) hxinc hconv hfirst
  have habove : ∀ q ∈ (H0 :: H1 :: rest), 0 ≤ dev H0 (slope H0 H1) q := by
    refine chain_above H0 (slope H0 H1) _ hxinc hedges ?_
    intro z hz
    simp only [List.head?_cons, Option.mem_def, Option.some.injEq] at hz
    subst hz
    rw [dev_self]
  have hstep : f1PassStep (H0 :: H1 :: rest) (Bf Af t) =
      if at_or_above (Bf Af t) (slope H0 H1) H0 = true then (H0 :: H1 :: rest)
      else ((Bf Af t) :: popWhile2 (fun a b => non_left_angle_turn (Bf Af t) a b) (H1 :: rest)) := by
    unfold f1PassStep
    simp only [List.headD_cons, List.getD_cons_succ, List.getD_cons_zero, List.tail_cons]
  rw [hstep]
  by_cases hcase : at_or_above (Bf Af t) (slope H0 H1) H0 = true
  · -- the point is at-or-above the first edge: the stack is unchanged
    rw [if_pos hcase]
    have hdevp : 0 ≤ dev H0 (slope H0 H1) (Bf Af t) := (at_or_above_iff_dev _ _ _).mp hcase
    refine ⟨⟨hS.len, hxinc, hconv, htailA, hlast, ?_, ?_, ?_⟩, le_refl _⟩
    · -- headx
      simp only [List.headD_cons, Nat.add_sub_cancel]
      have h1 := hcsd.x_lt (show t - 1 < t by omega) htk
      linarith
    · -- secondx
      intro htk1
      simp only [List.getD_cons_succ, List.getD_cons_zero]
      obtain ⟨m, hm1, hmk, hH1m⟩ := htailA H1 (List.mem_cons_self H1 rest)
      rcases Nat.lt_or_ge m (t + 1) with hmt | hge
      · have hmt' : m = t := by
          by_contra hne
          have hmlt : m < t := by omega
          have hxlt := hcsd.x_lt hmlt htk
          have hold := hsecondx htk
          rw [hH1m] at hold
          linarith
        exfalso
        subst hmt'
        subst hH1m
        have hσ1 : 1 ≤ slope H0 (Af m) := by
          have hs := dev_shift H0 (slope H0 (Af m)) (Af m)
          have hz : dev H0 (slope H0 (Af m)) (Af m) = 0 := dev_second hx01.ne
          rw [hz] at hs
          have : dev H0 (slope H0 (Af m)) (Bf Af m) = slope H0 (Af m) - 1 := by
            unfold Bf
            rw [hs]
            ring
          rw [this] at hdevp
          linarith
        cases rest with
        | nil =>
          have h1 : Af m = Af k := by
            simp only [List.getLast?_cons_cons, List.getLast?_singleton,
              Option.some.injEq] at hlast
            exact hlast
          have h2 := hcsd.x_lt (show m < k by omega) (le_refl k)
          rw [h1] at h2
          linarith
        | cons H2 rest' =>
          have hcross := hconv.1
          have hx12 : (Af m).1 < H2.1 := (List.chain'_cons.mp (List.chain'_cons.mp hxinc).2).1
          have hslope := (cross2_pos_iff_slope_lt H0 (Af m) H2 hx01 hx12).mp hcross
          obtain ⟨m2, hm21, hm2k, hH2⟩ := htailA H2
            (List.mem_cons_of_mem (Af m) (List.mem_cons_self H2 rest'))
          subst hH2
          have hm2t : m < m2 := by
            by_contra h'
            push_neg at h'
            have := hcsd.x_le h' hmk
            linarith
          have hle1 := hcsd.chord_le_one hm2t hm2k
          linarith
      · have := hcsd.x_le hge hmk
        rw [hH1m]
        simpa using this
    · -- bAbove
      intro a ha
      simp only [List.headD_cons, List.getD_cons_succ, List.getD_cons_zero]
      rcases Nat.lt_or_ge a t with h' | h'
      · exact hbAbove a h'
      · have : a = t := by omega
        subst this
        exact hdevp
  · -- the point is strictly below the first edge: pop and push
    rw [if_neg hcase]
    have hcase' : at_or_above (Bf Af t) (slope H0 H1) H0 = false := by
      revert hcase
      cases at_or_above (Bf Af t) (slope H0 H1) H0 <;> simp
    have hdevp : dev H0 (slope H0 H1) (Bf Af t) < 0 := (at_or_above_false_iff _ _ _).mp hcase'
    have htail_above : ∀ q ∈ (H1 :: rest), 0 ≤ dev H0 (slope H0 H1) q :=
      fun q hq => habove q (List.mem_cons_of_mem H0 hq)
    have hedges_tail := hedges.suffix (List.suffix_cons H0 (H1 :: rest))
    have hxinc_tail := hxinc.suffix (List.suffix_cons H0 (H1 :: rest))
    have hlast_tail : (H1 :: rest).getLast? = some (Af k) := by
      rwa [List.getLast?_cons_cons] at hlast
    have hpx_last : ∀ z, (H1 :: rest).getLast? = some z → (Bf Af t).1 < z.1 := by
      intro z hz
      rw [hlast_tail] at hz
      injection hz with hz
      subst hz
      have hxtk : (Af t).1 ≤ (Af k).1 := hcsd.x_le htk (le_refl k)
      simp only [Bf, point_subtraction]
      linarith
    have hpop := pop_head_gt (Bf Af t) H0 (slope H0 H1) (H1 :: rest) htail_above hedges_tail
      hxinc_tail hdevp hpx_last (H1 :: rest) (List.suffix_refl _) (by simp)
    have hRne : popWhile2 (fun a b => non_left_angle_turn (Bf Af t) a b) (H1 :: rest) ≠ [] :=
      popWhile2_ne_nil _ _ (by simp)
    have hRsuf : popWhile2 (fun a b => non_left_angle_turn (Bf Af t) a b) (H1 :: rest) <:+
        (H1 :: rest) := popWhile2_suffix _ _
    obtain ⟨Rh, Rtail, hRdecomp⟩ : ∃ a l,
        popWhile2 (fun a b => non_left_angle_turn (Bf Af t) a b) (H1 :: rest) = a :: l := by
      cases hR : popWhile2 (fun a b => non_left_angle_turn (Bf Af t) a b) (H1 :: rest) with
      | nil => exact absurd hR hRne
      | cons x l => exact ⟨x, l, rfl⟩
    rw [hRdecomp] at hpop hRsuf
    simp only [List.headD_cons] at hpop
    have hRhS : Rh ∈ (H1 :: rest) := hRsuf.mem (List.mem_cons_self Rh Rtail)
    have hdevRh : 0 ≤ dev H0 (slope H0 H1) Rh := htail_above Rh hRhS
    have hσ' : slope H0 H1 < slope (Bf Af t) Rh :=
      slope_gt_of_dev H0 (slope H0 H1) _ Rh hpop hdevp hdevRh
    rw [hRdecomp]
    have hchainR : List.Chain' (fun u v : Point => u.1 < v.1) (Rh :: Rtail) := by
      have := hxinc_tail.suffix hRsuf
      exact this
    refine ⟨⟨?_, ?_, ?_, ?_, ?_, ?_, ?_, ?_⟩, ?_⟩
    · simp
    · exact List.chain'_cons.mpr ⟨hpop, hchainR⟩
    · -- Convex3
      cases Rtail with
      | nil => trivial
      | cons R1 Rt' =>
        constructor
        · exact non_left_angle_turn_false
            (popWhile2_stop _ (H1 :: rest) Rh R1 Rt' hRdecomp)
        · have h1 : Convex3 (H1 :: rest) := convex3_tail hconv
          exact convex3_suffix h1 hRsuf
    · intro q hq
      exact htailA q (hRsuf.mem hq)
    · rw [show ((Bf Af t :: Rh :: Rtail).getLast? = (Rh :: Rtail).getLast?) from
        List.getLast?_cons_cons]
      rw [← getLast?_of_suffix hRsuf (by simp)]
      exact hlast_tail
    · simp only [List.headD_cons, Nat.add_sub_cancel, Bf, point_subtraction]
      exact le_refl _
    · intro htk1
      simp only [List.getD_cons_succ, List.getD_cons_zero]
      obtain ⟨m, hm1, hmk, hRhm⟩ := htailA Rh hRhS
      subst hRhm
      have hmt : t ≤ m := by
        by_contra h'
        push_neg at h'
        have hxle := hcsd.x_le (show m ≤ t - 1 by omega) (by omega)
        have hxlt := hcsd.x_lt (show t - 1 < t by omega) htk
        simp only [Bf, point_subtraction] at hpop
        linarith
      rcases eq_or_lt_of_le hmt with heq | hlt
      · exfalso
        subst heq
        cases Rtail with
        | nil =>
          have h1 := getLast?_of_suffix hRsuf (by simp)
          rw [hlast_tail] at h1
          simp only [List.getLast?_singleton, Option.some.injEq] at h1
          have := hcsd.x_lt (show t < k by omega) (le_refl k)
          rw [h1] at this
          linarith
        | cons R1 Rt' =>
          have hstop := popWhile2_stop _ (H1 :: rest) (Af t) R1 Rt' hRdecomp
          obtain ⟨m2, hm21, hm2k, hR1⟩ := htailA R1
            (hRsuf.mem (List.mem_cons_of_mem (Af t) (List.mem_cons_self R1 Rt')))
          subst hR1
          have hx_t_m2 : (Af t).1 < (Af m2).1 := (List.chain'_cons.mp hchainR).1
          have hmm2 : t < m2 := by
            by_contra h'
            push_neg at h'
            have := hcsd.x_le h' htk
            linarith
          have hyx := hcsd.yx_le hmm2.le hm2k
          have hbad : non_left_angle_turn (Bf Af t) (Af t) (Af m2) = true := by
            refine non_left_angle_turn_true_of_cross ?_
            simp only [Bf, point_subtraction, cross2]
            ring_nf
            nlinarith
          rw [hstop] at hbad
          exact Bool.false_ne_true hbad
      · have := hcsd.x_le (show t + 1 ≤ m by omega) hmk
        exact this
    · intro a ha
      simp only [List.headD_cons, List.getD_cons_succ, List.getD_cons_zero]
      rcases Nat.lt_or_ge a t with h' | h'
      · have hold := hbAbove a h'
        have hxa := hcsd.x_le (show a ≤ t - 1 by omega) (by omega)
        have hxt := hcsd.x_lt (show t - 1 < t by omega) htk
        have hBa_px : (Bf Af a).1 ≤ (Bf Af t).1 - 1 := by
          simp only [Bf, point_subtraction]
          linarith
        have hσle : slope H0 H1 ≤ slope (Bf Af t) Rh := hσ'.le
        have hxd : (Bf Af a).1 - (Bf Af t).1 ≤ 0 := by linarith
        have hmul : slope H0 H1 * ((Bf Af a).1 - (Bf Af t).1) ≥
            slope (Bf Af t) Rh * ((Bf Af a).1 - (Bf Af t).1) := by
          exact mul_le_mul_of_nonpos_right hσle hxd
        unfold dev lineY at hold hdevp ⊢
        nlinarith
      · have : a = t := by omega
        subst this
        rw [dev_self]
    · simp only [List.headD_cons, List.getD_cons_succ, List.getD_cons_zero]
      exact hσ'.le

theorem convex3_of_append : ∀ (L rest : List Point), Convex3 (L ++ rest) → Convex3 L
  | [], _, _ => trivial
  | [_], _, _ => trivial
  | [_, _], _, _ => trivial
  | a :: b :: c :: L', rest, h => by
    obtain ⟨h1, h2⟩ := h
    exact ⟨h1, convex3_of_append (b :: c :: L') rest h2⟩

theorem convex3_prefix {L M : List Point} (h : Convex3 M) (hp : L <+: M) : Convex3 L := by
  obtain ⟨rest, rfl⟩ := hp
  exact convex3_of_append L rest h

theorem convex3_snoc : ∀ (M : List Point) (p : Point), Convex3 M →
    (∀ u v, M.dropLast.getLast? = some u → M.getLast? = some v →
      0 < cross2 (point_subtraction v u) (point_subtraction p v)) →
    Convex3 (M ++ [p])
  | [], p, _, _ => trivial
  | [a], p, _, _ => trivial
  | [a, b], p, _, hj => by
    refine ⟨hj a b rfl rfl, trivial⟩
  | a :: b :: c :: M', p, h, hj => by
    refine ⟨h.1, convex3_snoc (b :: c :: M') p h.2 ?_⟩
    intro u v hu hv
    refine hj u v ?_ ?_
    · rw [List.dropLast_cons₂, List.dropLast_cons₂, List.getLast?_cons_cons,
        ← List.dropLast_cons₂]
      exact hu
    · rwa [List.getLast?_cons_cons]

theorem mem_split_last {L : List Point} {q z : Point} (hq : q ∈ L)
    (hz : L.getLast? = some z) : q ∈ L.dropLast ∨ q = z := by
  have hne : L ≠ [] := by
    rintro rfl
    simp at hz
  have hsplit := List.dropLast_append_getLast hne
  rw [← hsplit] at hq
  rcases List.mem_append.mp hq with h | h
  · exact Or.inl h
  · right
    simp only [List.mem_singleton] at h
    rw [List.getLast?_eq_getLast L hne] at hz
    injection hz with hz
    rw [h, hz]

theorem reverse_eq_last_cons {L : List Point} {z : Point} (hz : L.getLast? = some z) :
    L.reverse = z :: L.dropLast.reverse := by
  have hne : L ≠ [] := by
    rintro rfl
    simp at hz
  conv_lhs => rw [← List.dropLast_append_getLast hne]
  rw [List.reverse_append]
  rw [List.getLast?_eq_getLast L hne] at hz
  injection hz with hz
  simp [hz]

/-- The invariant of the `initialize_f1_corners` scan, after the points
`Af 1 … Af j` have been processed (working list top-first; the bottom
sentinel `(-1,-1)` is the last element). -/
def SInv (Af : ℕ → Point) (j : ℕ) (L : List Point) : Prop :=
  2 ≤ L.length ∧
  L.head? = some (Af j) ∧
  L.getLast? = some ((-1 : ℚ), (-1 : ℚ)) ∧
  (∀ q ∈ L.dropLast, ∃ m, 1 ≤ m ∧ m ≤ j ∧ q = Af m) ∧
  List.Chain' (fun u v : Point => v.1 < u.1) L ∧
  Convex3 L.reverse

theorem sinv_step {Af : ℕ → Point} {k : ℕ} (hcsd : CsdHyp Af k) (j : ℕ)
    (hj1 : 1 ≤ j) (hjk : j < k) (L : List Point) (hL : SInv Af j L) :
    SInv Af (j + 1)
      (Af (j + 1) :: popWhile2 (fun top next => non_left_angle_turn next top (Af (j + 1))) L) := by
  obtain ⟨hlen, hhead, hlastL, hmem, hchain, hconvR⟩ := hL
  have hLne : L ≠ [] := by
    rintro rfl
    simp at hlen
  have hRsuf := popWhile2_suffix (fun top next => non_left_angle_turn next top (Af (j + 1))) L
  have hRne := popWhile2_ne_nil (fun top next => non_left_angle_turn next top (Af (j + 1))) L hLne
  set R := popWhile2 (fun top next => non_left_angle_turn next top (Af (j + 1))) L with hRdef
  obtain ⟨pre, hpre⟩ := hRsuf
  have hRlast : R.getLast? = some ((-1 : ℚ), (-1 : ℚ)) := by
    rw [← getLast?_of_suffix ⟨pre, hpre⟩ hRne]
    exact hlastL
  have hRdropsub : R.dropLast ⊆ L.dropLast := by
    intro q hq
    rw [← hpre, List.dropLast_append_of_ne_nil pre hRne]
    exact List.mem_append_right pre hq
  refine ⟨?_, rfl, ?_, ?_, ?_, ?_⟩
  · cases hR : R with
    | nil => exact absurd hR hRne
    | cons a l => simp [hR]
  · rw [show (Af (j + 1) :: R) = [Af (j + 1)] ++ R from rfl,
      List.getLast?_append_of_ne_nil _ hRne]
    exact hRlast
  · intro q hq
    rw [show (Af (j + 1) :: R) = [Af (j + 1)] ++ R from rfl,
      List.dropLast_append_of_ne_nil _ hRne] at hq
    rcases List.mem_append.mp hq with h | h
    · simp only [List.mem_singleton] at h
      exact ⟨j + 1, by omega, le_refl _, h⟩
    · obtain ⟨m, hm1, hmj, hqm⟩ := hmem q (hRdropsub h)
      exact ⟨m, hm1, by omega, hqm⟩
  · cases hR : R with
    | nil => exact absurd hR hRne
    | cons Rh Rt =>
      rw [List.chain'_cons]
      constructor
      · have hRhL : Rh ∈ L := by
          refine List.IsSuffix.mem ?_ ⟨pre, hpre⟩
          rw [hR]
          exact List.mem_cons_self Rh Rt
        rcases mem_split_last hRhL hlastL with h | h
        · obtain ⟨m, hm1, hmj, hqm⟩ := hmem Rh h
          have := hcsd.x_lt (show m < j + 1 by omega) (by omega)
          rw [hqm]
          linarith
        · have h0 := hcsd.x_le (Nat.zero_le (j + 1)) (by omega)
          rw [hcsd.x0] at h0
          rw [h]
          simp only [origin] at h0
          dsimp only at h0 ⊢
          linarith
      · rw [← hR]
        exact hchain.suffix ⟨pre, hpre⟩
  · rw [show (Af (j + 1) :: R).reverse = R.reverse ++ [Af (j + 1)] from by simp]
    refine convex3_snoc R.reverse (Af (j + 1)) ?_ ?_
    · exact convex3_prefix hconvR (List.reverse_prefix.mpr ⟨pre, hpre⟩)
    · intro u v hu hv
      cases hR : R with
      | nil => exact absurd hR hRne
      | cons Rh Rt =>
        rw [hR] at hv
        rw [List.getLast?_reverse] at hv
        simp only [List.head?_cons, Option.some.injEq] at hv
        subst hv
        cases hRt : Rt with
        | nil =>
          rw [hR, hRt] at hu
          simp at hu
        | cons R1 Rt' =>
          rw [hR, hRt] at hu
          rw [show (Rh :: R1 :: Rt').reverse = (R1 :: Rt').reverse ++ [Rh] from by simp,
            List.dropLast_concat, List.getLast?_reverse] at hu
          simp only [List.head?_cons, Option.some.injEq] at hu
          subst hu
          have hstop := popWhile2_stop (fun top next => non_left_angle_turn next top (Af (j + 1)))
            L Rh R1 Rt' (by rw [← hRdef, hR, hRt])
          exact non_left_angle_turn_false hstop

theorem scan_fold {Af : ℕ → Point} {k : ℕ} (hcsd : CsdHyp Af k) :
    ∀ (c j : ℕ), 1 ≤ j → j + c = k → ∀ L, SInv Af j L →
    SInv Af k (((List.range' (j + 1) c).map Af).foldl
      (fun st p => p :: popWhile2 (fun top next => non_left_angle_turn next top p) st) L) := by
  intro c
  induction c with
  | zero =>
    intro j hj1 hjk L hL
    obtain rfl : j = k := by omega
    simpa using hL
  | succ c ih =>
    intro j hj1 hjk L hL
    rw [List.range'_succ, List.map_cons, List.foldl_cons]
    exact ih (j + 1) (by omega) (by omega) _ (sinv_step hcsd j hj1 (by omega) L hL)

theorem inv1_of_sinv {Af : ℕ → Point} {k : ℕ} (hcsd : CsdHyp Af k) (hk : 1 ≤ k)
    (L : List Point) (h : SInv Af k L) : Inv1 Af k 1 L.reverse := by
  obtain ⟨hlen, hhead, hlast, hmem, hchain, hconv⟩ := h
  have hrev : L.reverse = ((-1 : ℚ), (-1 : ℚ)) :: L.dropLast.reverse :=
    reverse_eq_last_cons hlast
  refine ⟨?_, ?_, hconv, ?_, ?_, ?_, ?_, ?_⟩
  · rw [List.length_reverse]
    exact hlen
  · rw [List.chain'_reverse]
    exact hchain
  · intro q hq
    rw [hrev] at hq
    simp only [List.tail_cons, List.mem_reverse] at hq
    exact hmem q hq
  · rw [List.getLast?_reverse]
    exact hhead
  · rw [hrev]
    simp only [List.headD_cons]
    rw [hcsd.x0]
    simp only [origin]
    norm_num
  · intro _
    rw [hrev]
    simp only [List.getD_cons_succ, List.getD_cons_zero]
    obtain ⟨q, rest, hq⟩ : ∃ a l, L.dropLast.reverse = a :: l := by
      cases hc : L.dropLast.reverse with
      | nil =>
        exfalso
        have hlc := congrArg List.length hc
        simp only [List.length_reverse, List.length_dropLast, List.length_nil] at hlc
        omega
      | cons a l => exact ⟨a, l, rfl⟩
    rw [hq]
    simp only [List.getD_cons_zero]
    have hqmem : q ∈ L.dropLast := by
      rw [← List.mem_reverse, hq]
      exact List.mem_cons_self _ _
    obtain ⟨m, hm1, hmk, rfl⟩ := hmem q hqmem
    exact hcsd.x_le hm1 hmk
  · intro a ha
    have ha0 : a = 0 := by omega
    subst ha0
    have hB0 : Bf Af 0 = ((-1 : ℚ), (-1 : ℚ)) := by
      unfold Bf point_subtraction
      rw [hcsd.x0]
      simp [origin]
    rw [hrev, hB0]
    simp only [List.headD_cons]
    rw [dev_self]

theorem first_scan_push {Af : ℕ → Point} {k : ℕ} (hcsd : CsdHyp Af k) (hk : 1 ≤ k) :
    popWhile2 (fun top next => non_left_angle_turn next top (Af 1))
      [Af 0, ((-1 : ℚ), (-1 : ℚ))] = [((-1 : ℚ), (-1 : ℚ))] := by
  have hpop : non_left_angle_turn ((-1 : ℚ), (-1 : ℚ)) (Af 0) (Af 1) = true := by
    refine non_left_angle_turn_true_of_cross ?_
    have hyx := hcsd.hyx 0 (by omega)
    rw [hcsd.x0] at hyx
    simp only [origin] at hyx
    norm_num at hyx
    rw [hcsd.x0]
    unfold cross2 point_subtraction origin
    dsimp only
    nlinarith [hyx]
  unfold popWhile2
  rw [if_pos hpop]
  rfl

theorem sinv_base {Af : ℕ → Point} {k : ℕ} (hcsd : CsdHyp Af k) (hk : 1 ≤ k) :
    SInv Af 1 [Af 1, ((-1 : ℚ), (-1 : ℚ))] := by
  refine ⟨by simp, rfl, by simp, ?_, ?_, trivial⟩
  · intro q hq
    simp only [List.dropLast_cons₂, List.dropLast_single, List.mem_singleton] at hq
    exact ⟨1, le_refl _, le_refl _, hq⟩
  · rw [List.chain'_cons]
    refine ⟨?_, List.chain'_singleton _⟩
    have h1 := hcsd.x_lt (show 0 < 1 by omega) hk
    rw [hcsd.x0] at h1
    simp only [origin] at h1
    dsimp only at h1 ⊢
    linarith

/-- The initial stack of `compute_f1` (the reversed output of the corner
scan) satisfies the loop invariant at `t = 1`. -/
theorem inv1_init {Af : ℕ → Point} {k : ℕ} (hcsd : CsdHyp Af k) (hk : 1 ≤ k) :
    Inv1 Af k 1
      ((init_f1_corners (((-1 : ℚ), (-1 : ℚ)) :: (List.range (k + 1)).map Af)).reverse) := by
  have hrange : (List.range (k + 1)).map Af = Af 0 :: (List.range' 1 k).map Af := by
    rw [List.range_eq_range', List.range'_succ]
    simp
  rw [hrange]
  show Inv1 Af k 1 ((((List.range' 1 k).map Af).foldl
    (fun st p => p :: popWhile2 (fun top next => non_left_angle_turn next top p) st)
    [Af 0, ((-1 : ℚ), (-1 : ℚ))]).reverse)
  obtain ⟨k', rfl⟩ : ∃ k', k = k' + 1 := ⟨k - 1, by omega⟩
  rw [List.range'_succ, List.map_cons, List.foldl_cons]
  rw [first_scan_push hcsd hk]
  exact inv1_of_sinv hcsd hk _
    (scan_fold hcsd k' 1 (le_refl 1) (by omega) _ (sinv_base hcsd hk))

/-- After one `compute_f1` stack update the head is either unchanged or the
processed point itself. -/
theorem f1PassStep_head (st : List Point) (p : Point) :
    (f1PassStep st p).headD origin = st.headD origin ∨
      (f1PassStep st p).headD origin = p := by
  unfold f1PassStep
  split
  · exact Or.inl rfl
  · exact Or.inr rfl

/-- Under the loop invariant the second stack element is a scanned CSD point
`Af b` with `t ≤ b ≤ k`. -/
theorem inv1_second {Af : ℕ → Point} {k t : ℕ} {S : List Point} (hcsd : CsdHyp Af k)
    (hS : Inv1 Af k t S) (htk : t ≤ k) :
    ∃ b, t ≤ b ∧ b ≤ k ∧ S.getD 1 origin = Af b := by
  obtain ⟨H0, H1, rest, rfl⟩ := exists_two S hS.len
  obtain ⟨m, hm1, hmk, hEq⟩ := hS.tailA H1 (by simp)
  refine ⟨m, ?_, hmk, by simpa using hEq⟩
  by_contra hlt
  push_neg at hlt
  have hx := hcsd.x_lt hlt htk
  have hsec := hS.secondx htk
  simp only [List.getD_cons_succ, List.getD_cons_zero] at hsec
  rw [hEq] at hsec
  linarith

/-- The facts recorded for the slope stored at step `t` of `compute_f1`: it is
in `(0, 1]`, and some CSD point `Af b` (`t ≤ b ≤ k`) caps from above every
chord from a shifted point `Bf Af a` with `a < t`. -/
def Good1 (Af : ℕ → Point) (k t : ℕ) (σ : ℚ) : Prop :=
  0 < σ ∧ σ ≤ 1 ∧ ∃ b, t ≤ b ∧ b ≤ k ∧ ∀ a, a < t → slope (Bf Af a) (Af b) ≤ σ

theorem good1_of_inv {Af : ℕ → Point} {k t : ℕ} {S : List Point} (hcsd : CsdHyp Af k)
    (hS : Inv1 Af k t S) (ht1 : 1 ≤ t) (htk : t ≤ k)
    (hhead : ∃ a, a < t ∧ S.headD origin = Bf Af a) :
    Good1 Af k t (slope (S.headD origin) (S.getD 1 origin)) := by
  obtain ⟨a0, ha0, hH⟩ := hhead
  obtain ⟨b, htb, hbk, hB⟩ := inv1_second hcsd hS htk
  have ha0b : a0 < b := by omega
  have hxab : (Af a0).1 ≤ (Af b).1 := hcsd.x_le (by omega) hbk
  have hyab : (Af a0).2 ≤ (Af b).2 := hcsd.y_le (by omega) hbk
  have hyx : (Af b).2 - (Af a0).2 ≤ (Af b).1 - (Af a0).1 := hcsd.yx_le (by omega) hbk
  have hxBb : (Bf Af a0).1 < (Af b).1 := by
    simp only [Bf, point_subtraction]
    linarith
  have hslope_pos : 0 < slope (Bf Af a0) (Af b) := by
    unfold slope Bf point_subtraction
    dsimp only
    apply div_pos <;> linarith
  have hslope_le : slope (Bf Af a0) (Af b) ≤ 1 := by
    unfold slope Bf point_subtraction
    dsimp only
    rw [div_le_one (by linarith)]
    linarith
  obtain ⟨H0, H1, rest, rfl⟩ := exists_two S hS.len
  simp only [List.headD_cons, List.getD_cons_succ, List.getD_cons_zero] at hH hB ⊢
  have hx01 : H0.1 < H1.1 := (List.chain'_cons.mp hS.xinc).1
  have hdev2 : dev H0 (slope H0 H1) H1 = 0 := dev_second hx01.ne
  subst hH
  subst hB
  refine ⟨hslope_pos, hslope_le, b, htb, hbk, ?_⟩
  intro a ha
  have hdevA := hS.bAbove a ha
  simp only [List.headD_cons, List.getD_cons_succ, List.getD_cons_zero] at hdevA
  have hxa : (Bf Af a).1 < (Af b).1 := by
    have := hcsd.x_le (show a ≤ b by omega) hbk
    simp only [Bf, point_subtraction]
    linarith
  exact slope_le_of_dev _ _ _ _ hxa hdevA (le_of_eq hdev2)

/-- Master induction for `compute_f1`: starting from any stack satisfying the
invariant at step `t` whose head is a shifted point, the recorded slopes are a
non-decreasing sequence and each carries the `Good1` package for its step. -/
theorem f1_props {Af : ℕ → Point} {k : ℕ} (hcsd : CsdHyp Af k) :
    ∀ (c t : ℕ), 1 ≤ t → t + c = k + 1 → ∀ S, Inv1 Af k t S →
      (∃ a, a < t ∧ S.headD origin = Bf Af a) →
      (f1Slopes S ((List.range' t c).map (Bf Af))).length = c ∧
      List.Chain' (fun x y : ℚ => x ≤ y) (f1Slopes S ((List.range' t c).map (Bf Af))) ∧
      ∀ j, j < c → Good1 Af k (t + j) ((f1Slopes S ((List.range' t c).map (Bf Af))).getD j 0)
  | 0, t, ht1, htc, S, hS, hhead => by
    refine ⟨rfl, List.chain'_nil, ?_⟩
    intro j hj
    omega
  | c + 1, t, ht1, htc, S, hS, hhead => by
    have htk : t ≤ k := by omega
    have hstep := inv1_step hcsd t ht1 htk S hS
    have hgood := good1_of_inv hcsd hS ht1 htk hhead
    have hhead2 : ∃ a, a < t + 1 ∧ (f1PassStep S (Bf Af t)).headD origin = Bf Af a := by
      rcases f1PassStep_head S (Bf Af t) with h | h
      · obtain ⟨a, ha, hH⟩ := hhead
        exact ⟨a, by omega, h.trans hH⟩
      · exact ⟨t, by omega, h⟩
    have ih := f1_props hcsd c (t + 1) (by omega) (by omega) _ hstep.1 hhead2
    rw [List.range'_succ, List.map_cons]
    simp only [f1Slopes]
    refine ⟨by simpa using ih.1, ?_, ?_⟩
    · rw [List.chain'_cons']
      refine ⟨?_, ih.2.1⟩
      intro z hz
      cases c with
      | zero =>
        simp [f1Slopes] at hz
      | succ c2 =>
        rw [List.range'_succ, List.map_cons] at hz
        simp only [f1Slopes, List.head?_cons, Option.mem_def, Option.some.injEq] at hz
        subst hz
        exact hstep.2
    · intro j hj
      cases j with
      | zero =>
        simpa using hgood
      | succ j2 =>
        simp only [List.getD_cons_succ]
        have := ih.2.2 j2 (by omega)
        have heq : t + (j2 + 1) = t + 1 + j2 := by omega
        rw [heq]
        exact this

/-- One step of the (mutation-free reformulation of the) `compute_f0` loop:
the stack update performed for an incoming point `p`. -/
def f0PassStep (st : List Point) (p : Point) : List Point :=
  if at_or_above p (slope (st.headD origin) (st.getD 1 origin)) (st.headD origin) then st
  else p :: popWhile2 (fun a b => non_right_angle_turn p a b) st.tail

/-- The sequence of first-edge slopes the `compute_f0` loop records while
processing a list of points. -/
def f0Slopes (st : List Point) : List Point → List ℚ
  | [] => []
  | p :: ps => slope (st.headD origin) (st.getD 1 origin) :: f0Slopes (f0PassStep st p) ps

/-- The shifted point `A j + (1,0)` processed by `compute_f0` at loop index
`j + 1`. -/
def Cf (Af : ℕ → Point) (j : ℕ) : Point := point_addition (Af j) (1, 0)

/-- Successive `List.set` writes at ascending positions (the output updates of
the `compute_f1` loop). -/
def foldSet : List ℚ → ℕ → List ℚ → List ℚ
  | F, _, [] => F
  | F, q, σ :: σs => foldSet (F.set q σ) (q + 1) σs

/-- Successive `List.set` writes at descending positions (the output updates
of the `compute_f0` loop). -/
def foldSetDown : List ℚ → ℕ → List ℚ → List ℚ
  | F, _, [] => F
  | F, q, σ :: σs => foldSetDown (F.set q σ) (q - 1) σs

theorem set_take_le (σ : ℚ) : ∀ (F : List ℚ) (i p : ℕ), p ≤ i →
    (F.set i σ).take p = F.take p
  | [], _, _, _ => by simp
  | a :: F, 0, p, h => by
    have hp : p = 0 := Nat.le_zero.mp h
    subst hp
    simp
  | a :: F, i + 1, 0, _ => by simp
  | a :: F, i + 1, p + 1, h => by
    show (a :: F.set i σ).take (p + 1) = (a :: F).take (p + 1)
    simp only [List.take_succ_cons]
    rw [set_take_le σ F i p (by omega)]

theorem set_drop_gt (σ : ℚ) : ∀ (F : List ℚ) (i p : ℕ), i < p →
    (F.set i σ).drop p = F.drop p
  | [], _, _, _ => by simp
  | a :: F, 0, p, h => by
    obtain ⟨p2, rfl⟩ : ∃ p2, p = p2 + 1 := ⟨p - 1, by omega⟩
    show (σ :: F).drop (p2 + 1) = (a :: F).drop (p2 + 1)
    simp [List.drop_succ_cons]
  | a :: F, i + 1, p, h => by
    obtain ⟨p2, rfl⟩ : ∃ p2, p = p2 + 1 := ⟨p - 1, by omega⟩
    show (a :: F.set i σ).drop (p2 + 1) = (a :: F).drop (p2 + 1)
    simp only [List.drop_succ_cons]
    exact set_drop_gt σ F i p2 (by omega)

theorem set_take_succ (σ : ℚ) : ∀ (F : List ℚ) (q : ℕ), q < F.length →
    (F.set q σ).take (q + 1) = F.take q ++ [σ]
  | [], q, h => by simp at h
  | a :: F, 0, _ => by
    show (σ :: F).take 1 = [] ++ [σ]
    simp
  | a :: F, q + 1, h => by
    show (a :: F.set q σ).take (q + 2) = (a :: F.take q) ++ [σ]
    simp only [List.take_succ_cons, List.cons_append]
    rw [set_take_succ σ F q (by simpa using h)]

theorem set_drop_self (σ : ℚ) : ∀ (F : List ℚ) (q : ℕ), q < F.length →
    (F.set q σ).drop q = σ :: F.drop (q + 1)
  | [], q, h => by simp at h
  | a :: F, 0, _ => rfl
  | a :: F, q + 1, h => by
    show (a :: F.set q σ).drop (q + 1) = σ :: (a :: F).drop (q + 2)
    simp only [List.drop_succ_cons]
    exact set_drop_self σ F q (by simpa using h)

/-- `foldSet` overwrites the slice starting at `q` with the written values. -/
theorem foldSet_eq : ∀ (σs F : List ℚ) (q : ℕ), q + σs.length ≤ F.length →
    foldSet F q σs = F.take q ++ σs ++ F.drop (q + σs.length)
  | [], F, q, h => by
    simp only [foldSet, List.length_nil, Nat.add_zero, List.append_nil]
    rw [List.take_append_drop]
  | σ :: σs, F, q, h => by
    simp only [List.length_cons] at h
    simp only [foldSet]
    rw [foldSet_eq σs (F.set q σ) (q + 1) (by simp; omega)]
    rw [set_take_succ σ F q (by omega), set_drop_gt σ F q (q + 1 + σs.length) (by omega)]
    have e : q + 1 + σs.length = q + (σs.length + 1) := by omega
    rw [e]
    simp [List.append_assoc]

/-- `foldSetDown` overwrites the slice ending at `q` with the written values
reversed. -/
theorem foldSetDown_eq : ∀ (σs F : List ℚ) (q : ℕ), σs.length ≤ q + 1 → q < F.length →
    foldSetDown F q σs = F.take (q + 1 - σs.length) ++ σs.reverse ++ F.drop (q + 1)
  | [], F, q, h, hq => by
    simp only [foldSetDown, List.length_nil, Nat.sub_zero, List.reverse_nil, List.append_nil]
    rw [List.take_append_drop]
  | σ :: σs, F, q, h, hq => by
    simp only [List.length_cons] at h
    simp only [foldSetDown]
    cases q with
    | zero =>
      have hσ : σs = [] := List.length_eq_zero.mp (by omega)
      subst hσ
      simp only [foldSetDown, List.reverse_cons, List.reverse_nil, List.nil_append]
      have h1 : (F.set 0 σ).take 1 = F.take 0 ++ [σ] := set_take_succ σ F 0 hq
      have h2 : (F.set 0 σ).drop 1 = F.drop 1 := set_drop_gt σ F 0 1 (by omega)
      calc F.set 0 σ = (F.set 0 σ).take 1 ++ (F.set 0 σ).drop 1 := (List.take_append_drop _ _).symm
        _ = (F.take 0 ++ [σ]) ++ F.drop 1 := by rw [h1, h2]
        _ = F.take (0 + 1 - (1 : ℕ)) ++ [σ] ++ F.drop (0 + 1) := by simp
    | succ q2 =>
      rw [foldSetDown_eq σs (F.set (q2 + 1) σ) (q2 + 1 - 1) (by simp; omega)
        (by simp; omega)]
      have e1 : q2 + 1 - 1 = q2 := rfl
      rw [e1]
      rw [set_take_le σ F (q2 + 1) (q2 + 1 - σs.length) (by omega)]
      rw [set_drop_self σ F (q2 + 1) hq]
      have e2 : q2 + 1 - σs.length = q2 + 1 + 1 - (σs.length + 1) := by omega
      simp only [List.length_cons, List.reverse_cons]
      rw [← e2]
      simp only [List.append_assoc, List.singleton_append, List.cons_append, List.nil_append]

theorem getD_set_ne_pt (σ : Point) : ∀ (F : List Point) (i j : ℕ), i ≠ j →
    (F.set i σ).getD j origin = F.getD j origin
  | [], _, _, _ => by simp
  | a :: F, 0, j, h => by
    obtain ⟨j2, rfl⟩ : ∃ j2, j = j2 + 1 := ⟨j - 1, by omega⟩
    show (σ :: F).getD (j2 + 1) origin = (a :: F).getD (j2 + 1) origin
    simp [List.getD_cons_succ]
  | a :: F, i + 1, 0, h => by
    show (a :: F.set i σ).getD 0 origin = (a :: F).getD 0 origin
    simp [List.getD_cons_zero]
  | a :: F, i + 1, j + 1, h => by
    show (a :: F.set i σ).getD (j + 1) origin = (a :: F).getD (j + 1) origin
    simp only [List.getD_cons_succ]
    exact getD_set_ne_pt σ F i j (by omega)

theorem getD_set_self_pt (σ : Point) : ∀ (F : List Point) (i : ℕ), i < F.length →
    (F.set i σ).getD i origin = σ
  | [], i, h => by simp at h
  | a :: F, 0, _ => rfl
  | a :: F, i + 1, h => by
    show (a :: F.set i σ).getD (i + 1) origin = σ
    simp only [List.getD_cons_succ]
    exact getD_set_self_pt σ F i (by simpa using h)

theorem getD_zero_headD (l : List Point) : l.getD 0 origin = l.headD origin := by
  cases l <;> rfl

/-- The telescoping identity of the in-place `csd` mutation in `compute_f1`:
`B m + A (m+1) - A m = B (m+1)`. -/
theorem bf_step_point (Af : ℕ → Point) (m : ℕ) :
    point_subtraction (point_addition (Bf Af m) (Af (m + 1))) (Af m) = Bf Af (m + 1) := by
  unfold Bf point_addition point_subtraction
  simp only [Prod.mk.injEq]
  constructor <;> ring

/-- The telescoping identity of the in-place `csd` mutation in `compute_f0`:
`A m + C (m+1) - A (m+1) = C m`. -/
theorem cf_step_point (Af : ℕ → Point) (m : ℕ) :
    point_subtraction (point_addition (Af m) (Cf Af (m + 1))) (Af (m + 1)) = Cf Af m := by
  unfold Cf point_addition point_subtraction
  simp only [Prod.mk.injEq]
  constructor <;> ring

/-- The `compute_f1` fold, seen through the in-place `csd` mutation: its output
array is the initial array with the recorded slopes written at ascending
positions starting at `m + 1`. -/
theorem f1_fold_spec {Af : ℕ → Point} {k : ℕ} :
    ∀ (c m : ℕ), (m + 2) + c = k + 2 →
    ∀ (F : List ℚ) (csd st : List Point),
      csd.length = k + 2 →
      (∀ j, m + 1 ≤ j → j ≤ k + 1 → csd.getD j origin = Af (j - 1)) →
      csd.getD m origin = Bf Af m →
      ((List.range' (m + 2) c).foldl f1Step ⟨F, csd, st⟩).F =
        foldSet F (m + 1) (f1Slopes st ((List.range' (m + 1) c).map (Bf Af)))
  | 0, m, hck, F, csd, st, hlen, hA, hB => by
    simp [f1Slopes, foldSet]
  | c + 1, m, hck, F, csd, st, hlen, hA, hB => by
    have hm1 : csd.getD (m + 1) origin = Af m := by
      have := hA (m + 1) (le_refl _) (by omega)
      simpa using this
    have hm2 : csd.getD (m + 2) origin = Af (m + 1) := by
      have := hA (m + 2) (by omega) (by omega)
      simpa using this
    have hstep_eq : f1Step ⟨F, csd, st⟩ (m + 2) =
        ⟨F.set (m + 1) (slope (st.headD origin) (st.getD 1 origin)),
         csd.set (m + 1) (Bf Af (m + 1)), f1PassStep st (Bf Af (m + 1))⟩ := by
      unfold f1Step f1PassStep
      have e1 : m + 2 - 1 = m + 1 := rfl
      have e2 : m + 2 - 2 = m := rfl
      rw [e1, e2, hB, hm1, hm2, bf_step_point, getD_zero_headD]
      dsimp only
      split
      · rfl
      · rfl
    rw [List.range'_succ, List.foldl_cons, hstep_eq]
    rw [@f1_fold_spec Af k c (m + 1) (by omega)
      (F.set (m + 1) (slope (st.headD origin) (st.getD 1 origin)))
      (csd.set (m + 1) (Bf Af (m + 1))) (f1PassStep st (Bf Af (m + 1)))
      (by simpa using hlen) ?hA ?hB]
    case hA =>
      intro j hj1 hj2
      rw [getD_set_ne_pt (Bf Af (m + 1)) csd (m + 1) j (by omega)]
      exact hA j (by omega) hj2
    case hB =>
      rw [getD_set_self_pt (Bf Af (m + 1)) csd (m + 1) (by omega)]
    rw [List.range'_succ, List.map_cons]
    simp only [f1Slopes, foldSet]

/-- The `compute_f0` fold, seen through the in-place `csd` mutation: its output
array is the initial array with the recorded slopes written at descending
positions starting at `m`. -/
theorem f0_fold_spec {Af : ℕ → Point} {k : ℕ} :
    ∀ (m : ℕ), m ≤ k →
    ∀ (F : List ℚ) (csd st : List Point),
      csd.length = k + 2 →
      (∀ j, j ≤ m → csd.getD j origin = Af j) →
      csd.getD (m + 1) origin = Cf Af m →
      (((List.range' 1 m).reverse).foldl f0Step ⟨F, csd, st⟩).F =
        foldSetDown F m (f0Slopes st (((List.range m).map (Cf Af)).reverse))
  | 0, hmk, F, csd, st, hlen, hA, hC => by
    simp [f0Slopes, foldSetDown]
  | m + 1, hmk, F, csd, st, hlen, hA, hC => by
    have hm0 : csd.getD m origin = Af m := hA m (by omega)
    have hm1 : csd.getD (m + 1) origin = Af (m + 1) := hA (m + 1) (le_refl _)
    have hstep_eq : f0Step ⟨F, csd, st⟩ (1 + m) =
        ⟨F.set (m + 1) (slope (st.headD origin) (st.getD 1 origin)),
         csd.set (m + 1) (Cf Af m), f0PassStep st (Cf Af m)⟩ := by
      have e0 : 1 + m = m + 1 := by omega
      rw [e0]
      unfold f0Step f0PassStep
      have e1 : m + 1 - 1 = m := rfl
      rw [e1, hm0, hm1, hC, cf_step_point, getD_zero_headD]
      dsimp only
      split
      · rfl
      · rfl
    have hconcat : List.range' 1 (m + 1) = List.range' 1 m ++ [1 + m] := by
      simpa using List.range'_1_concat 1 m
    rw [hconcat, List.reverse_append, List.reverse_singleton, List.singleton_append,
      List.foldl_cons, hstep_eq]
    rw [@f0_fold_spec Af k m (by omega)
      (F.set (m + 1) (slope (st.headD origin) (st.getD 1 origin)))
      (csd.set (m + 1) (Cf Af m)) (f0PassStep st (Cf Af m))
      (by simpa using hlen) ?hA ?hC]
    case hA =>
      intro j hj
      rw [getD_set_ne_pt (Cf Af m) csd (m + 1) j (by omega)]
      exact hA j (by omega)
    case hC =>
      rw [getD_set_self_pt (Cf Af m) csd (m + 1) (by omega)]
    have hrange : ((List.range (m + 1)).map (Cf Af)).reverse =
        Cf Af m :: ((List.range m).map (Cf Af)).reverse := by
      rw [List.range_succ, List.map_append, List.reverse_append]
      simp
    rw [hrange]
    simp only [f0Slopes, foldSetDown]
    have e3 : m + 1 - 1 = m := rfl
    rw [e3]

theorem slope_comm (u v : Point) : slope u v = slope v u := by
  unfold slope
  rw [← neg_div_neg_eq]
  congr 1 <;> ring

/-- `dev` is antitone along an edge whose slope is at most `sl`. -/
theorem dev_mono_rev (P : Point) (sl : ℚ) {a b : Point} (hx : a.1 < b.1)
    (hsl : slope a b ≤ sl) : dev P sl b ≤ dev P sl a := by
  have hb : b.2 - a.2 ≤ sl * (b.1 - a.1) := by
    have := (div_le_iff (by linarith : (0 : ℚ) < b.1 - a.1)).mp hsl
    linarith [this]
  unfold dev lineY
  nlinarith

/-- A chord from an at-or-above point rightward to a strictly-below point has
slope strictly below the line's slope. -/
theorem slope_lt_of_dev (P : Point) (sl : ℚ) (u v : Point) (hx : u.1 < v.1)
    (hu : 0 ≤ dev P sl u) (hv : dev P sl v < 0) : slope u v < sl := by
  rw [slope_eq_add_dev P sl u v hx.ne]
  have : (dev P sl v - dev P sl u) / (v.1 - u.1) < 0 :=
    div_neg_of_neg_of_pos (by linarith) (by linarith)
  linarith

/-- Reversing the orientation of a triple flips the sign of its turn. -/
theorem cross2_reverse (u v w : Point) :
    cross2 (point_subtraction v w) (point_subtraction u v) =
      - cross2 (point_subtraction v u) (point_subtraction w v) := by
  unfold cross2 point_subtraction
  dsimp only
  ring

theorem non_right_angle_turn_false {p a b : Point}
    (h : non_right_angle_turn p a b = false) :
    cross2 (point_subtraction a p) (point_subtraction b a) < 0 := by
  unfold non_right_angle_turn at h
  simp only [ge_iff_le, decide_eq_false_iff_not, not_le] at h
  exact h

theorem non_right_angle_turn_true_of_cross {p a b : Point}
    (h : 0 ≤ cross2 (point_subtraction a p) (point_subtraction b a)) :
    non_right_angle_turn p a b = true := by
  unfold non_right_angle_turn
  simpa using h

/-- Strict concavity of a head-first polyline: every consecutive triple makes
a strict right turn. -/
def Concave3 : List Point → Prop
  | u :: v :: w :: rest =>
      cross2 (point_subtraction v u) (point_subtraction w v) < 0 ∧ Concave3 (v :: w :: rest)
  | _ => True

theorem concave3_tail : ∀ {S : List Point}, Concave3 S → Concave3 S.tail
  | [], _ => trivial
  | [_], _ => trivial
  | [_, _], _ => trivial
  | _ :: _ :: _ :: _, h => h.2

theorem concave3_suffix {S L : List Point} (h : Concave3 S) (hs : L <:+ S) : Concave3 L := by
  obtain ⟨pre, rfl⟩ := hs
  induction pre with
  | nil => exact h
  | cons a l ih => exact ih (concave3_tail h)

theorem concave3_of_append : ∀ (L rest : List Point), Concave3 (L ++ rest) → Concave3 L
  | [], _, _ => trivial
  | [_], _, _ => trivial
  | [_, _], _, _ => trivial
  | a :: b :: c :: L2, rest, h => by
    obtain ⟨h1, h2⟩ := h
    exact ⟨h1, concave3_of_append (b :: c :: L2) rest h2⟩

theorem concave3_prefix {L M : List Point} (h : Concave3 M) (hp : L <+: M) : Concave3 L := by
  obtain ⟨rest, rfl⟩ := hp
  exact concave3_of_append L rest h

theorem concave3_snoc : ∀ (M : List Point) (p : Point), Concave3 M →
    (∀ u v, M.dropLast.getLast? = some u → M.getLast? = some v →
      cross2 (point_subtraction v u) (point_subtraction p v) < 0) →
    Concave3 (M ++ [p])
  | [], p, _, _ => trivial
  | [a], p, _, _ => trivial
  | [a, b], p, _, hj => by
    refine ⟨hj a b rfl rfl, trivial⟩
  | a :: b :: c :: M2, p, h, hj => by
    refine ⟨h.1, concave3_snoc (b :: c :: M2) p h.2 ?_⟩
    intro u v hu hv
    refine hj u v ?_ ?_
    · rw [List.dropLast_cons₂, List.dropLast_cons₂, List.getLast?_cons_cons,
        ← List.dropLast_cons₂]
      exact hu
    · rwa [List.getLast?_cons_cons]

/-- In an x-decreasing, strictly concave chain every edge's slope is at most
any upper bound of the first edge's slope. -/
theorem chain_edges_le : ∀ (S : List Point) (σ : ℚ),
    List.Chain' (fun u v : Point => v.1 < u.1) S → Concave3 S →
    (∀ u v rest, S = u :: v :: rest → slope u v ≤ σ) →
    List.Chain' (fun u v : Point => slope u v ≤ σ) S
  | [], _, _, _, _ => List.chain'_nil
  | [_], _, _, _, _ => List.chain'_singleton _
  | [u, v], σ, _, _, hfirst => (List.chain'_cons.mpr ⟨hfirst u v [] rfl, List.chain'_singleton _⟩)
  | u :: v :: w :: rest, σ, hx, hc, hfirst => by
    rw [List.chain'_cons] at hx ⊢
    have hx2 := List.chain'_cons.mp hx.2
    have h1 : slope u v ≤ σ := hfirst u v (w :: rest) rfl
    refine ⟨h1, chain_edges_le (v :: w :: rest) σ hx.2 hc.2 ?_⟩
    rintro u2 v2 rest2 h2
    injection h2 with h21 h22
    injection h22 with h23 h24
    subst h21
    subst h23
    have hcross : 0 < cross2 (point_subtraction v w) (point_subtraction u v) := by
      rw [cross2_reverse]
      linarith [hc.1]
    have := (cross2_pos_iff_slope_lt w v u hx2.1 hx.1).mp hcross
    rw [slope_comm w v, slope_comm v u] at this
    linarith

/-- In an x-decreasing chain whose edges have slope at most `σ`, every element
lies at-or-above the line through an on-or-below-starting head. -/
theorem chain_above0 (P : Point) (σ : ℚ) : ∀ (S : List Point),
    List.Chain' (fun u v : Point => v.1 < u.1) S →
    List.Chain' (fun u v : Point => slope u v ≤ σ) S →
    (∀ h ∈ S.head?, 0 ≤ dev P σ h) →
    ∀ q ∈ S, 0 ≤ dev P σ q
  | [], _, _, _, q, hq => absurd hq (List.not_mem_nil q)
  | a :: l, hx, hsl, hhead, q, hq => by
    rcases List.mem_cons.mp hq with rfl | hq2
    · exact hhead q rfl
    · cases l with
      | nil => exact absurd hq2 (List.not_mem_nil q)
      | cons b l2 =>
        have hab : 0 ≤ dev P σ b := by
          have h0 : 0 ≤ dev P σ a := hhead a rfl
          have hba : b.1 < a.1 := (List.chain'_cons.mp hx).1
          have hslab : slope a b ≤ σ := (List.chain'_cons.mp hsl).1
          have := dev_mono_rev P σ hba (by rw [slope_comm]; exact hslab)
          linarith
        refine chain_above0 P σ (b :: l2) (List.chain'_cons.mp hx).2
          (List.chain'_cons.mp hsl).2 ?_ q hq2
        intro h hh
        simp only [List.head?_cons, Option.mem_def, Option.some.injEq] at hh
        subst hh
        exact hab

/-- Mirror of `pop_head_gt` for the `compute_f0` pop loop: the loop keeps
popping while the top is not strictly left of the incoming point `p`, so the
final head is strictly left of `p`. -/
theorem pop_head_lt (p H0 : Point) (σ : ℚ) (S : List Point)
    (above : ∀ q ∈ S, 0 ≤ dev H0 σ q)
    (edges : List.Chain' (fun u v : Point => slope u v ≤ σ) S)
    (xdec : List.Chain' (fun u v : Point => v.1 < u.1) S)
    (devp : dev H0 σ p < 0)
    (lastx : ∀ z, S.getLast? = some z → z.1 < p.1) :
    ∀ L, L <:+ S → L ≠ [] →
      ((popWhile2 (fun a b => non_right_angle_turn p a b) L).headD origin).1 < p.1
  | [], hsuf, hne => absurd rfl hne
  | [x], hsuf, _ => by
    have hlast : S.getLast? = some x := by
      rw [getLast?_of_suffix hsuf (by simp)]
      rfl
    simpa [popWhile2] using lastx x hlast
  | a :: b :: r, hsuf, _ => by
    unfold popWhile2
    split
    · exact pop_head_lt p H0 σ S above edges xdec devp lastx (b :: r)
        (((List.suffix_cons a (b :: r)).trans hsuf)) (by simp)
    · rename_i hbad
      simp only [List.headD_cons]
      by_contra hle
      push_neg at hle
      refine hbad ?_
      have hxab : b.1 < a.1 := (List.chain'_cons.mp (xdec.suffix hsuf)).1
      have hslab : slope a b ≤ σ := (List.chain'_cons.mp (edges.suffix hsuf)).1
      have ha : a ∈ S := hsuf.mem (List.mem_cons_self a (b :: r))
      have deva := above a ha
      have hdev : dev a (slope a b) p < 0 := by
        have hmul : (σ - slope a b) * (p.1 - a.1) ≤ 0 :=
          mul_nonpos_of_nonneg_of_nonpos (by linarith) (by linarith)
        unfold dev lineY at devp deva ⊢
        nlinarith
      refine non_right_angle_turn_true_of_cross ?_
      rw [cross_eq_den_mul_dev p a b (by intro h; rw [h] at hxab; exact absurd hxab (lt_irrefl _))]
      have hden : b.1 - a.1 < 0 := by linarith
      nlinarith

/-- The loop invariant of the (reformulated) `compute_f0` loop, holding at
the moment just before `Cf Af (t - 1)` is processed (`t = 0` is the final
state). -/
structure Inv0 (Af : ℕ → Point) (k t : ℕ) (S : List Point) : Prop where
  len : 2 ≤ S.length
  xdec : List.Chain' (fun u v : Point => v.1 < u.1) S
  concave : Concave3 S
  tailA : ∀ q ∈ S.tail, ∃ m, m ≤ k ∧ q = Af m
  lastA : S.getLast? = some (Af 0)
  headC : ∃ m, t ≤ m ∧ m ≤ k ∧ S.headD origin = Cf Af m
  secondx : 1 ≤ t → (S.getD 1 origin).1 ≤ (Af (t - 1)).1
  cAbove : ∀ b, t ≤ b → b ≤ k →
    0 ≤ dev (S.headD origin) (slope (S.headD origin) (S.getD 1 origin)) (Cf Af b)

theorem dev_shift0 (P : Point) (sl : ℚ) (q : Point) :
    dev P sl (point_addition q (1, 0)) = dev P sl q - sl := by
  unfold dev lineY point_addition
  dsimp only
  ring

/-- The step theorem for `compute_f0`: processing the point `Cf Af t`
preserves the loop invariant and does not increase the first-edge slope. -/
theorem inv0_step {Af : ℕ → Point} {k : ℕ} (hcsd : CsdHyp Af k) (t : ℕ)
    (htk : t + 1 ≤ k) (S : List Point) (hS : Inv0 Af k (t + 1) S) :
    Inv0 Af k t (f0PassStep S (Cf Af t)) ∧
    slope ((f0PassStep S (Cf Af t)).headD origin)
        ((f0PassStep S (Cf Af t)).getD 1 origin) ≤
      slope (S.headD origin) (S.getD 1 origin) := by
  obtain ⟨H0, H1, rest, rfl⟩ := exists_two S hS.len
  have hxdec := hS.xdec
  have hconc := hS.concave
  have htailA := hS.tailA
  have hlast := hS.lastA
  have hheadC := hS.headC
  have hsecondx := hS.secondx
  have hcAbove := hS.cAbove
  simp only [List.headD_cons, List.getD_cons_succ, List.getD_cons_zero,
    Nat.add_sub_cancel] at hheadC hsecondx hcAbove
  have hx01 : H1.1 < H0.1 := (List.chain'_cons.mp hxdec).1
  have hfirst : ∀ u v rest2, (H0 :: H1 :: rest) = u :: v :: rest2 →
      slope u v ≤ slope H0 H1 := by
    intro u v r2 hh
    injection hh with h1 h2
    injection h2 with h3 h4
    subst h1
    subst h3
    exact le_refl _
  have hedges := chain_edges_le (H0 :: H1 :: rest) (slope H0 H1) hxdec hconc hfirst
  have habove : ∀ q ∈ (H0 :: H1 :: rest), 0 ≤ dev H0 (slope H0 H1) q := by
    refine chain_above0 H0 (slope H0 H1) _ hxdec hedges ?_
    intro z hz
    simp only [List.head?_cons, Option.mem_def, Option.some.injEq] at hz
    subst hz
    rw [dev_self]
  have hstep : f0PassStep (H0 :: H1 :: rest) (Cf Af t) =
      if at_or_above (Cf Af t) (slope H0 H1) H0 = true then (H0 :: H1 :: rest)
      else ((Cf Af t) ::
        popWhile2 (fun a b => non_right_angle_turn (Cf Af t) a b) (H1 :: rest)) := by
    unfold f0PassStep
    simp only [List.headD_cons, List.getD_cons_succ, List.getD_cons_zero, List.tail_cons]
  rw [hstep]
  by_cases hcase : at_or_above (Cf Af t) (slope H0 H1) H0 = true
  · -- the point is at-or-above the first edge: the stack is unchanged
    rw [if_pos hcase]
    have hdevp : 0 ≤ dev H0 (slope H0 H1) (Cf Af t) := (at_or_above_iff_dev _ _ _).mp hcase
    refine ⟨⟨hS.len, hxdec, hconc, htailA, hlast, ?_, ?_, ?_⟩, le_refl _⟩
    · obtain ⟨m, hm1, hmk, hH0⟩ := hheadC
      exact ⟨m, by omega, hmk, by simpa using hH0⟩
    · intro ht1
      simp only [List.getD_cons_succ, List.getD_cons_zero]
      obtain ⟨m, hmk, hH1m⟩ := htailA H1 (List.mem_cons_self H1 rest)
      rcases Nat.lt_or_ge m t with hmt | hge
      · rw [hH1m]
        exact hcsd.x_le (show m ≤ t - 1 by omega) (by omega)
      · exfalso
        have hmt2 : m = t := by
          have hold := hsecondx (by omega)
          rw [hH1m] at hold
          by_contra hne
          have hxlt := hcsd.x_lt (show t < m by omega) hmk
          linarith
        subst hmt2
        subst hH1m
        have hdev0 : dev H0 (slope H0 (Af m)) (Af m) = 0 := dev_second hx01.ne.symm
        have hσ0 : slope H0 (Af m) ≤ 0 := by
          have hs := dev_shift0 H0 (slope H0 (Af m)) (Af m)
          have hcf : dev H0 (slope H0 (Af m)) (Cf Af m) = - slope H0 (Af m) := by
            unfold Cf
            rw [hs, hdev0]
            ring
          rw [hcf] at hdevp
          linarith
        cases rest with
        | nil =>
          have h1 : Af m = Af 0 := by
            simp only [List.getLast?_cons_cons, List.getLast?_singleton,
              Option.some.injEq] at hlast
            exact hlast
          have h2 := hcsd.x_lt (show 0 < m by omega) (by omega)
          rw [h1] at h2
          linarith
        | cons H2 rest2 =>
          have hcross := hconc.1
          have hx12 : H2.1 < (Af m).1 :=
            (List.chain'_cons.mp (List.chain'_cons.mp hxdec).2).1
          have hcross2 : 0 < cross2 (point_subtraction (Af m) H2)
              (point_subtraction H0 (Af m)) := by
            rw [cross2_reverse]
            linarith
          have hslope := (cross2_pos_iff_slope_lt H2 (Af m) H0 hx12 hx01).mp hcross2
          obtain ⟨m2, hm2k, hH2⟩ := htailA H2
            (List.mem_cons_of_mem (Af m) (List.mem_cons_self H2 rest2))
          subst hH2
          have hm2t : m2 < m := by
            by_contra h2
            push_neg at h2
            have := hcsd.x_le h2 hm2k
            linarith
          have hnn := hcsd.chord_nonneg hm2t (by omega)
          rw [slope_comm (Af m) H0] at hslope
          linarith
    · intro b hb1 hb2
      simp only [List.headD_cons, List.getD_cons_succ, List.getD_cons_zero]
      rcases Nat.lt_or_ge b (t + 1) with h2 | h2
      · have hbt : b = t := by omega
        subst hbt
        exact hdevp
      · exact hcAbove b h2 hb2
  · -- the point is strictly below the first edge: pop and push
    rw [if_neg hcase]
    have hcase2 : at_or_above (Cf Af t) (slope H0 H1) H0 = false := by
      revert hcase
      cases at_or_above (Cf Af t) (slope H0 H1) H0 <;> simp
    have hdevp : dev H0 (slope H0 H1) (Cf Af t) < 0 := (at_or_above_false_iff _ _ _).mp hcase2
    have htail_above : ∀ q ∈ (H1 :: rest), 0 ≤ dev H0 (slope H0 H1) q :=
      fun q hq => habove q (List.mem_cons_of_mem H0 hq)
    have hedges_tail := hedges.suffix (List.suffix_cons H0 (H1 :: rest))
    have hxdec_tail := hxdec.suffix (List.suffix_cons H0 (H1 :: rest))
    have hlast_tail : (H1 :: rest).getLast? = some (Af 0) := by
      rwa [List.getLast?_cons_cons] at hlast
    have hpx_last : ∀ z, (H1 :: rest).getLast? = some z → z.1 < (Cf Af t).1 := by
      intro z hz
      rw [hlast_tail] at hz
      injection hz with hz
      subst hz
      have hx0t : (Af 0).1 ≤ (Af t).1 := hcsd.x_le (Nat.zero_le t) (by omega)
      simp only [Cf, point_addition]
      linarith
    have hpop := pop_head_lt (Cf Af t) H0 (slope H0 H1) (H1 :: rest) htail_above hedges_tail
      hxdec_tail hdevp hpx_last (H1 :: rest) (List.suffix_refl _) (by simp)
    have hRne : popWhile2 (fun a b => non_right_angle_turn (Cf Af t) a b) (H1 :: rest) ≠ [] :=
      popWhile2_ne_nil _ _ (by simp)
    have hRsuf : popWhile2 (fun a b => non_right_angle_turn (Cf Af t) a b) (H1 :: rest) <:+
        (H1 :: rest) := popWhile2_suffix _ _
    obtain ⟨Rh, Rtail, hRdecomp⟩ : ∃ a l,
        popWhile2 (fun a b => non_right_angle_turn (Cf Af t) a b) (H1 :: rest) = a :: l := by
      cases hR : popWhile2 (fun a b => non_right_angle_turn (Cf Af t) a b) (H1 :: rest) with
      | nil => exact absurd hR hRne
      | cons x l => exact ⟨x, l, rfl⟩
    rw [hRdecomp] at hpop hRsuf
    simp only [List.headD_cons] at hpop
    have hRhS : Rh ∈ (H1 :: rest) := hRsuf.mem (List.mem_cons_self Rh Rtail)
    have hdevRh : 0 ≤ dev H0 (slope H0 H1) Rh := htail_above Rh hRhS
    have hσ2 : slope Rh (Cf Af t) < slope H0 H1 :=
      slope_lt_of_dev H0 (slope H0 H1) Rh _ hpop hdevRh hdevp
    rw [hRdecomp]
    have hchainR : List.Chain' (fun u v : Point => v.1 < u.1) (Rh :: Rtail) :=
      hxdec_tail.suffix hRsuf
    refine ⟨⟨?_, ?_, ?_, ?_, ?_, ?_, ?_, ?_⟩, ?_⟩
    · simp
    · exact List.chain'_cons.mpr ⟨hpop, hchainR⟩
    · cases Rtail with
      | nil => trivial
      | cons R1 Rt2 =>
        constructor
        · exact non_right_angle_turn_false
            (popWhile2_stop _ (H1 :: rest) Rh R1 Rt2 hRdecomp)
        · exact concave3_suffix (concave3_tail hconc) hRsuf
    · intro q hq
      exact htailA q (hRsuf.mem hq)
    · rw [show ((Cf Af t :: Rh :: Rtail).getLast? = (Rh :: Rtail).getLast?) from
        List.getLast?_cons_cons]
      rw [← getLast?_of_suffix hRsuf (by simp)]
      exact hlast_tail
    · exact ⟨t, le_refl _, by omega, by simp⟩
    · intro ht1
      simp only [List.getD_cons_succ, List.getD_cons_zero]
      obtain ⟨m, hmk, hRhm⟩ := htailA Rh hRhS
      subst hRhm
      have hmle : m ≤ t := by
        by_contra h2
        push_neg at h2
        have hxlt := hcsd.x_lt (show t < m by omega) hmk
        simp only [Cf, point_addition] at hpop
        linarith
      have hmt : m < t := by
        rcases eq_or_lt_of_le hmle with heq | hlt
        · exfalso
          subst heq
          cases Rtail with
          | nil =>
            have h1 := getLast?_of_suffix hRsuf (by simp)
            rw [hlast_tail] at h1
            simp only [List.getLast?_singleton, Option.some.injEq] at h1
            have h2 := hcsd.x_lt (show 0 < m by omega) (by omega)
            rw [← h1] at h2
            linarith
          | cons R1 Rt2 =>
            have hstop := popWhile2_stop _ (H1 :: rest) (Af m) R1 Rt2 hRdecomp
            have hc2 := non_right_angle_turn_false hstop
            obtain ⟨m2, hm2k, hR1⟩ := htailA R1
              (hRsuf.mem (List.mem_cons_of_mem (Af m) (List.mem_cons_self R1 Rt2)))
            subst hR1
            have hx_t_m2 : (Af m2).1 < (Af m).1 := (List.chain'_cons.mp hchainR).1
            have hm2t : m2 < m := by
              by_contra h2
              push_neg at h2
              have := hcsd.x_le h2 hm2k
              linarith
            have hy2 := hcsd.y_le (show m2 ≤ m by omega) (by omega)
            simp only [Cf, point_addition, point_subtraction, cross2] at hc2
            nlinarith [hc2, hy2]
        · exact hlt
      exact hcsd.x_le (show m ≤ t - 1 by omega) (by omega)
    · intro b hb1 hb2
      simp only [List.headD_cons, List.getD_cons_succ, List.getD_cons_zero]
      rcases Nat.lt_or_ge b (t + 1) with h2 | h2
      · have hbt : b = t := by omega
        subst hbt
        rw [dev_self]
      · have hold := hcAbove b h2 hb2
        have hxb : (Cf Af t).1 < (Cf Af b).1 := by
          have := hcsd.x_lt (show t < b by omega) hb2
          simp only [Cf, point_addition]
          linarith
        have hσle : slope (Cf Af t) Rh ≤ slope H0 H1 := by
          rw [slope_comm]
          exact hσ2.le
        have hmul : 0 ≤ (slope H0 H1 - slope (Cf Af t) Rh) * ((Cf Af b).1 - (Cf Af t).1) :=
          mul_nonneg (by linarith) (by linarith)
        unfold dev lineY at hold hdevp ⊢
        nlinarith
    · simp only [List.headD_cons, List.getD_cons_succ, List.getD_cons_zero]
      rw [slope_comm]
      exact hσ2.le

/-- The invariant of the `initialize_f0_corners` scan, after the points
`Af (k-1) … Af j` have been processed (working list top-first; the bottom
sentinel `Cf Af k` is the last element). -/
def SInv0 (Af : ℕ → Point) (k j : ℕ) (L : List Point) : Prop :=
  2 ≤ L.length ∧
  L.head? = some (Af j) ∧
  L.getLast? = some (Cf Af k) ∧
  (∀ q ∈ L.dropLast, ∃ m, j ≤ m ∧ m ≤ k - 1 ∧ q = Af m) ∧
  List.Chain' (fun u v : Point => u.1 < v.1) L ∧
  Concave3 L.reverse

theorem sinv0_step {Af : ℕ → Point} {k : ℕ} (hcsd : CsdHyp Af k) (j : ℕ)
    (hjk : j + 1 ≤ k - 1) (hk1 : 1 ≤ k) (L : List Point) (hL : SInv0 Af k (j + 1) L) :
    SInv0 Af k j
      (Af j :: popWhile2 (fun top next => non_right_angle_turn next top (Af j)) L) := by
  obtain ⟨hlen, hhead, hlastL, hmem, hchain, hconcR⟩ := hL
  have hLne : L ≠ [] := by
    rintro rfl
    simp at hlen
  have hRsuf := popWhile2_suffix (fun top next => non_right_angle_turn next top (Af j)) L
  have hRne := popWhile2_ne_nil (fun top next => non_right_angle_turn next top (Af j)) L hLne
  set R := popWhile2 (fun top next => non_right_angle_turn next top (Af j)) L with hRdef
  obtain ⟨pre, hpre⟩ := hRsuf
  have hRlast : R.getLast? = some (Cf Af k) := by
    rw [← getLast?_of_suffix ⟨pre, hpre⟩ hRne]
    exact hlastL
  have hRdropsub : R.dropLast ⊆ L.dropLast := by
    intro q hq
    rw [← hpre, List.dropLast_append_of_ne_nil pre hRne]
    exact List.mem_append_right pre hq
  refine ⟨?_, rfl, ?_, ?_, ?_, ?_⟩
  · cases hR : R with
    | nil => exact absurd hR hRne
    | cons a l => simp [hR]
  · rw [show (Af j :: R) = [Af j] ++ R from rfl,
      List.getLast?_append_of_ne_nil _ hRne]
    exact hRlast
  · intro q hq
    rw [show (Af j :: R) = [Af j] ++ R from rfl,
      List.dropLast_append_of_ne_nil _ hRne] at hq
    rcases List.mem_append.mp hq with h | h
    · simp only [List.mem_singleton] at h
      exact ⟨j, le_refl _, by omega, h⟩
    · obtain ⟨m, hm1, hmj, hqm⟩ := hmem q (hRdropsub h)
      exact ⟨m, by omega, hmj, hqm⟩
  · cases hR : R with
    | nil => exact absurd hR hRne
    | cons Rh Rt =>
      rw [List.chain'_cons]
      constructor
      · have hRhL : Rh ∈ L := by
          refine List.IsSuffix.mem ?_ ⟨pre, hpre⟩
          rw [hR]
          exact List.mem_cons_self Rh Rt
        rcases mem_split_last hRhL hlastL with h | h
        · obtain ⟨m, hm1, hmj, hqm⟩ := hmem Rh h
          have := hcsd.x_lt (show j < m by omega) (by omega)
          rw [hqm]
          linarith
        · have h0 := hcsd.x_le (show j ≤ k by omega) (le_refl k)
          rw [h]
          simp only [Cf, point_addition]
          linarith
      · rw [← hR]
        exact hchain.suffix ⟨pre, hpre⟩
  · rw [show (Af j :: R).reverse = R.reverse ++ [Af j] from by simp]
    refine concave3_snoc R.reverse (Af j) ?_ ?_
    · exact concave3_prefix hconcR (List.reverse_prefix.mpr ⟨pre, hpre⟩)
    · intro u v hu hv
      cases hR : R with
      | nil => exact absurd hR hRne
      | cons Rh Rt =>
        rw [hR] at hv
        rw [List.getLast?_reverse] at hv
        simp only [List.head?_cons, Option.some.injEq] at hv
        subst hv
        cases hRt : Rt with
        | nil =>
          rw [hR, hRt] at hu
          simp at hu
        | cons R1 Rt2 =>
          rw [hR, hRt] at hu
          rw [show (Rh :: R1 :: Rt2).reverse = (R1 :: Rt2).reverse ++ [Rh] from by simp,
            List.dropLast_concat, List.getLast?_reverse] at hu
          simp only [List.head?_cons, Option.some.injEq] at hu
          subst hu
          have hstop := popWhile2_stop (fun top next => non_right_angle_turn next top (Af j))
            L Rh R1 Rt2 (by rw [← hRdef, hR, hRt])
          exact non_right_angle_turn_false hstop

theorem scan_fold0 {Af : ℕ → Point} {k : ℕ} (hcsd : CsdHyp Af k) (hk1 : 1 ≤ k) :
    ∀ (j : ℕ), j ≤ k - 1 → ∀ L, SInv0 Af k j L →
    SInv0 Af k 0 ((((List.range j).map Af).reverse).foldl
      (fun st p => p :: popWhile2 (fun top next => non_right_angle_turn next top p) st) L)
  | 0, hj, L, hL => by simpa using hL
  | j + 1, hj, L, hL => by
    have hrange : ((List.range (j + 1)).map Af).reverse =
        Af j :: ((List.range j).map Af).reverse := by
      rw [List.range_succ, List.map_append, List.reverse_append]
      simp
    rw [hrange, List.foldl_cons]
    exact scan_fold0 hcsd hk1 j (by omega) _ (sinv0_step hcsd j (by omega) hk1 L hL)

theorem inv0_of_sinv0 {Af : ℕ → Point} {k : ℕ} (hcsd : CsdHyp Af k) (hk : 1 ≤ k)
    (L : List Point) (h : SInv0 Af k 0 L) : Inv0 Af k k L.reverse := by
  obtain ⟨hlen, hhead, hlast, hmem, hchain, hconc⟩ := h
  have hrev : L.reverse = Cf Af k :: L.dropLast.reverse := reverse_eq_last_cons hlast
  refine ⟨?_, ?_, hconc, ?_, ?_, ?_, ?_, ?_⟩
  · rw [List.length_reverse]
    exact hlen
  · rw [List.chain'_reverse]
    exact hchain
  · intro q hq
    rw [hrev] at hq
    simp only [List.tail_cons, List.mem_reverse] at hq
    obtain ⟨m, hm0, hmk, rfl⟩ := hmem q hq
    exact ⟨m, by omega, rfl⟩
  · rw [List.getLast?_reverse]
    exact hhead
  · exact ⟨k, le_refl _, le_refl _, by rw [hrev]; simp⟩
  · intro ht1
    rw [hrev]
    simp only [List.getD_cons_succ, List.getD_cons_zero]
    obtain ⟨q, rest2, hq⟩ : ∃ a l, L.dropLast.reverse = a :: l := by
      cases hc : L.dropLast.reverse with
      | nil =>
        exfalso
        have hlc := congrArg List.length hc
        simp only [List.length_reverse, List.length_dropLast, List.length_nil] at hlc
        omega
      | cons a l => exact ⟨a, l, rfl⟩
    rw [hq]
    simp only [List.getD_cons_zero]
    have hqmem : q ∈ L.dropLast := by
      rw [← List.mem_reverse, hq]
      exact List.mem_cons_self _ _
    obtain ⟨m, hm0, hmk, rfl⟩ := hmem q hqmem
    exact hcsd.x_le (by omega) (by omega)
  · intro b hb1 hb2
    have hbk : b = k := by omega
    subst hbk
    rw [hrev]
    simp only [List.headD_cons]
    rw [dev_self]

theorem first_scan_pop0 {Af : ℕ → Point} {k : ℕ} (hcsd : CsdHyp Af k) (j : ℕ) (hj : j ≤ k) :
    popWhile2 (fun top next => non_right_angle_turn next top (Af j)) [Af k, Cf Af k] =
      [Cf Af k] := by
  have hpop : non_right_angle_turn (Cf Af k) (Af k) (Af j) = true := by
    refine non_right_angle_turn_true_of_cross ?_
    have hy := hcsd.y_le hj (le_refl k)
    unfold Cf cross2 point_subtraction point_addition
    dsimp only
    nlinarith [hy]
  unfold popWhile2
  rw [if_pos hpop]
  rfl

theorem sinv0_base {Af : ℕ → Point} {k : ℕ} (hcsd : CsdHyp Af k) (hk : 1 ≤ k) :
    SInv0 Af k (k - 1) [Af (k - 1), Cf Af k] := by
  refine ⟨by simp, rfl, by simp, ?_, ?_, trivial⟩
  · intro q hq
    simp only [List.dropLast_cons₂, List.dropLast_single, List.mem_singleton] at hq
    exact ⟨k - 1, le_refl _, le_refl _, hq⟩
  · rw [List.chain'_cons]
    refine ⟨?_, List.chain'_singleton _⟩
    have h1 := hcsd.x_le (show k - 1 ≤ k by omega) (le_refl k)
    simp only [Cf, point_addition]
    linarith

/-- The initial stack of `compute_f0` (the reversed output of the corner
scan) satisfies the loop invariant at `t = k`. -/
theorem inv0_init {Af : ℕ → Point} {k : ℕ} (hcsd : CsdHyp Af k) (hk : 1 ≤ k) :
    Inv0 Af k k
      ((init_f0_corners (((List.range (k + 1)).map Af) ++ [Cf Af k])).reverse) := by
  have hrev2 : (((List.range (k + 1)).map Af) ++ [Cf Af k]).reverse =
      Cf Af k :: Af k :: ((List.range k).map Af).reverse := by
    rw [List.reverse_append, List.reverse_singleton, List.singleton_append]
    congr 1
    rw [List.range_succ, List.map_append, List.reverse_append]
    simp
  unfold init_f0_corners
  rw [hrev2]
  show Inv0 Af k k (((((List.range k).map Af).reverse).foldl
    (fun st p => p :: popWhile2 (fun top next => non_right_angle_turn next top p) st)
    [Af k, Cf Af k]).reverse)
  obtain ⟨k2, rfl⟩ : ∃ k2, k = k2 + 1 := ⟨k - 1, by omega⟩
  have hrange : ((List.range (k2 + 1)).map Af).reverse =
      Af k2 :: ((List.range k2).map Af).reverse := by
    rw [List.range_succ, List.map_append, List.reverse_append]
    simp
  rw [hrange, List.foldl_cons]
  rw [first_scan_pop0 hcsd k2 (by omega)]
  exact inv0_of_sinv0 hcsd hk _
    (scan_fold0 hcsd hk k2 (by omega) _ (sinv0_base hcsd hk))

/-- After one `compute_f0` stack update the head is either unchanged or the
processed point itself. -/
theorem f0PassStep_head (st : List Point) (p : Point) :
    (f0PassStep st p).headD origin = st.headD origin ∨
      (f0PassStep st p).headD origin = p := by
  unfold f0PassStep
  split
  · exact Or.inl rfl
  · exact Or.inr rfl

/-- Under the loop invariant the second stack element is a scanned CSD point
`Af a` with `a < t`. -/
theorem inv0_second {Af : ℕ → Point} {k t : ℕ} {S : List Point} (hcsd : CsdHyp Af k)
    (hS : Inv0 Af k t S) (ht1 : 1 ≤ t) :
    ∃ a, a < t ∧ S.getD 1 origin = Af a := by
  obtain ⟨H0, H1, rest, rfl⟩ := exists_two S hS.len
  obtain ⟨m, hmk, hEq⟩ := hS.tailA H1 (by simp)
  refine ⟨m, ?_, by simpa using hEq⟩
  have hsec := hS.secondx ht1
  simp only [List.getD_cons_succ, List.getD_cons_zero] at hsec
  rw [hEq] at hsec
  by_contra hlt
  push_neg at hlt
  have hx := hcsd.x_lt (show t - 1 < m by omega) hmk
  linarith

/-- The facts recorded for the slope stored at step `t` of `compute_f0`: it is
nonnegative, and some CSD point `Af a` (`a < t`) supports from below every
chord to a shifted point `Cf Af b` with `t ≤ b ≤ k`. -/
def Good0 (Af : ℕ → Point) (k t : ℕ) (σ : ℚ) : Prop :=
  0 ≤ σ ∧ ∃ a, a < t ∧ ∀ b, t ≤ b → b ≤ k → σ ≤ slope (Af a) (Cf Af b)

theorem good0_of_inv {Af : ℕ → Point} {k t : ℕ} {S : List Point} (hcsd : CsdHyp Af k)
    (hS : Inv0 Af k t S) (ht1 : 1 ≤ t) (htk : t ≤ k) :
    Good0 Af k t (slope (S.headD origin) (S.getD 1 origin)) := by
  obtain ⟨m, htm, hmk, hH⟩ := hS.headC
  obtain ⟨a, hat, hA⟩ := inv0_second hcsd hS ht1
  obtain ⟨H0, H1, rest, rfl⟩ := exists_two S hS.len
  simp only [List.headD_cons, List.getD_cons_succ, List.getD_cons_zero] at hH hA ⊢
  have hx01 : H1.1 < H0.1 := (List.chain'_cons.mp hS.xdec).1
  have hdev2 : dev H0 (slope H0 H1) H1 = 0 := dev_second hx01.ne.symm
  have hcab := hS.cAbove
  simp only [List.headD_cons, List.getD_cons_succ, List.getD_cons_zero] at hcab
  subst hH
  subst hA
  constructor
  · rw [slope_comm]
    have hy := hcsd.y_le (show a ≤ m by omega) hmk
    have hx := hcsd.x_le (show a ≤ m by omega) hmk
    unfold slope Cf point_addition
    dsimp only
    apply div_nonneg <;> linarith
  · refine ⟨a, hat, ?_⟩
    intro b hb1 hb2
    have hdevb := hcab b hb1 hb2
    have hxab : (Af a).1 < (Cf Af b).1 := by
      have := hcsd.x_le (show a ≤ b by omega) hb2
      simp only [Cf, point_addition]
      linarith
    exact slope_ge_of_dev _ _ _ _ hxab (le_of_eq hdev2) hdevb

/-- Master induction for `compute_f0`: starting from any stack satisfying the
invariant at step `t`, the recorded slopes are a non-increasing sequence and
each carries the `Good0` package for its step. -/
theorem f0_props {Af : ℕ → Point} {k : ℕ} (hcsd : CsdHyp Af k) :
    ∀ (t : ℕ), t ≤ k → ∀ S, Inv0 Af k t S →
      (f0Slopes S (((List.range t).map (Cf Af)).reverse)).length = t ∧
      List.Chain' (fun x y : ℚ => y ≤ x)
        (f0Slopes S (((List.range t).map (Cf Af)).reverse)) ∧
      ∀ j, j < t →
        Good0 Af k (t - j) ((f0Slopes S (((List.range t).map (Cf Af)).reverse)).getD j 0)
  | 0, htk, S, hS => by
    refine ⟨rfl, List.chain'_nil, ?_⟩
    intro j hj
    omega
  | t + 1, htk, S, hS => by
    have hstep := inv0_step hcsd t htk S hS
    have hgood := good0_of_inv hcsd hS (by omega) (by omega)
    have ih := f0_props hcsd t (by omega) _ hstep.1
    have hrange : ((List.range (t + 1)).map (Cf Af)).reverse =
        Cf Af t :: ((List.range t).map (Cf Af)).reverse := by
      rw [List.range_succ, List.map_append, List.reverse_append]
      simp
    rw [hrange]
    simp only [f0Slopes]
    refine ⟨by simpa using ih.1, ?_, ?_⟩
    · rw [List.chain'_cons']
      refine ⟨?_, ih.2.1⟩
      intro z hz
      cases t with
      | zero =>
        simp [f0Slopes] at hz
      | succ t2 =>
        rw [show ((List.range (t2 + 1)).map (Cf Af)).reverse =
            Cf Af t2 :: ((List.range t2).map (Cf Af)).reverse from by
          rw [List.range_succ, List.map_append, List.reverse_append]
          simp] at hz
        simp only [f0Slopes, List.head?_cons, Option.mem_def, Option.some.injEq] at hz
        subst hz
        exact hstep.2
    · intro j hj
      cases j with
      | zero =>
        simpa using hgood
      | succ j2 =>
        simp only [List.getD_cons_succ]
        have h2 := ih.2.2 j2 (by omega)
        have heq : t + 1 - (j2 + 1) = t - j2 := by omega
        rw [heq]
        exact h2

/-- The per-unique-score increment list feeding the cumulative sum diagram of
`ivapFitSorted` (weight, weight-scaled label rate). -/
def incrOf (sorted : List (ℚ × ℚ)) : List Point :=
  let ocs := sorted.map Prod.fst
  let unique_elements := ocs.dedup
  let counts := unique_elements.map fun s => ocs.count s
  let yrate := unique_elements.map fun s =>
    ((sorted.filter fun q => q.1 = s).map Prod.snd).sum / ((ocs.count s : ℕ) : ℚ)
  (counts.zip yrate).map fun wr => ((wr.1 : ℚ), wr.2 * (wr.1 : ℚ))

/-- The cumulative sum diagram of `ivapFitSorted`. -/
def csdOf (sorted : List (ℚ × ℚ)) : List Point :=
  List.scanl point_addition origin (incrOf sorted)

/-- The number of distinct calibration scores. -/
def kOf (sorted : List (ℚ × ℚ)) : ℕ := (sorted.map Prod.fst).dedup.length

/-- The CSD as an index function. -/
def AfOf (sorted : List (ℚ × ℚ)) : ℕ → Point := fun j => (csdOf sorted).getD j origin

theorem ivapFitSorted_eq (sorted : List (ℚ × ℚ)) :
    ivapFitSorted sorted =
      ⟨kOf sorted, (sorted.map Prod.fst).dedup,
        compute_f0 (init_f0_corners (csdOf sorted ++
          [(((csdOf sorted).getLastD origin).1 + 1, ((csdOf sorted).getLastD origin).2)]))
          (csdOf sorted ++
          [(((csdOf sorted).getLastD origin).1 + 1, ((csdOf sorted).getLastD origin).2)])
          (kOf sorted),
        compute_f1 (init_f1_corners ((-1, -1) :: csdOf sorted)) ((-1, -1) :: csdOf sorted)
          (kOf sorted)⟩ := rfl

theorem incrOf_length (sorted : List (ℚ × ℚ)) : (incrOf sorted).length = kOf sorted := by
  unfold incrOf kOf
  simp

theorem scanl_getD_zero : ∀ (l : List Point) (b : Point),
    (List.scanl point_addition b l).getD 0 origin = b
  | [], b => rfl
  | a :: l, b => rfl

theorem scanl_getD_succ : ∀ (l : List Point) (b : Point) (j : ℕ), j < l.length →
    (List.scanl point_addition b l).getD (j + 1) origin =
      point_addition ((List.scanl point_addition b l).getD j origin) (l.getD j origin)
  | [], b, j, h => by simp at h
  | a :: l, b, 0, h => by
    show (List.scanl point_addition (point_addition b a) l).getD 0 origin = point_addition b a
    exact scanl_getD_zero l (point_addition b a)
  | a :: l, b, j + 1, h => by
    show (List.scanl point_addition (point_addition b a) l).getD (j + 1) origin =
      point_addition ((List.scanl point_addition (point_addition b a) l).getD j origin)
        (l.getD j origin)
    exact scanl_getD_succ l (point_addition b a) j (by simpa using h)

theorem sum_snd_bounds : ∀ (l : List (ℚ × ℚ)), (∀ q ∈ l, q.2 = 0 ∨ q.2 = 1) →
    0 ≤ (l.map Prod.snd).sum ∧ (l.map Prod.snd).sum ≤ (l.length : ℚ)
  | [], _ => by simp
  | q :: l, h => by
    have ih := sum_snd_bounds l (fun x hx => h x (List.mem_cons_of_mem q hx))
    have hq := h q (List.mem_cons_self q l)
    simp only [List.map_cons, List.sum_cons, List.length_cons]
    push_cast
    rcases hq with h1 | h1 <;> rw [h1] <;> constructor <;> linarith [ih.1, ih.2]

theorem filter_length_eq_count (s : ℚ) : ∀ (l : List (ℚ × ℚ)),
    (l.filter fun q => q.1 = s).length = (l.map Prod.fst).count s
  | [] => rfl
  | q :: l => by
    simp only [List.filter_cons, List.map_cons, List.count_cons]
    by_cases h : q.1 = s
    · simp [h, filter_length_eq_count s l]
    · simp [h, filter_length_eq_count s l]

theorem incr_bounds (sorted : List (ℚ × ℚ)) (hlab : ∀ q ∈ sorted, q.2 = 0 ∨ q.2 = 1)
    (j : ℕ) (hj : j < kOf sorted) :
    1 ≤ ((incrOf sorted).getD j origin).1 ∧
    0 ≤ ((incrOf sorted).getD j origin).2 ∧
    ((incrOf sorted).getD j origin).2 ≤ ((incrOf sorted).getD j origin).1 := by
  have hjlen : j < (incrOf sorted).length := by
    rw [incrOf_length sorted]
    exact hj
  rw [List.getD_eq_getElem _ _ hjlen]
  unfold incrOf at hjlen ⊢
  unfold kOf at hj
  simp only [List.getElem_map, List.getElem_zip]
  have hj2 : j < (sorted.map Prod.fst).dedup.length := hj
  have humem : (sorted.map Prod.fst).dedup[j] ∈ sorted.map Prod.fst := by
    rw [← List.mem_dedup]
    exact List.getElem_mem hj2
  generalize hu : (sorted.map Prod.fst).dedup[j] = u
  rw [hu] at humem
  have hcount : 0 < (sorted.map Prod.fst).count u := List.count_pos_iff_mem.mpr humem
  have hw : (1 : ℚ) ≤ ((sorted.map Prod.fst).count u : ℚ) := by exact_mod_cast hcount
  have hsum := sum_snd_bounds (sorted.filter fun q => q.1 = u)
    (fun x hx => hlab x (List.mem_of_mem_filter hx))
  have hflen : (((sorted.filter fun q => q.1 = u).length : ℕ) : ℚ) =
      ((sorted.map Prod.fst).count u : ℚ) := by
    rw [filter_length_eq_count u sorted]
  have hwne : (((sorted.map Prod.fst).count u : ℕ) : ℚ) ≠ 0 := by
    push_cast
    linarith
  have hcancel : ((sorted.filter fun q => q.1 = u).map Prod.snd).sum /
      (((sorted.map Prod.fst).count u : ℕ) : ℚ) * (((sorted.map Prod.fst).count u : ℕ) : ℚ) =
      ((sorted.filter fun q => q.1 = u).map Prod.snd).sum :=
    div_mul_cancel₀ _ hwne
  refine ⟨hw, ?_, ?_⟩
  · rw [hcancel]
    exact hsum.1
  · rw [hcancel, ← hflen]
    exact hsum.2

/-- The cumulative sum diagram built by `ivapFitSorted` satisfies the abstract
CSD shape hypotheses. -/
theorem ivap_csd_hyp (sorted : List (ℚ × ℚ)) (hlab : ∀ q ∈ sorted, q.2 = 0 ∨ q.2 = 1) :
    CsdHyp (AfOf sorted) (kOf sorted) := by
  have hx0 : AfOf sorted 0 = origin := scanl_getD_zero (incrOf sorted) origin
  have hsucc : ∀ j, j < kOf sorted →
      AfOf sorted (j + 1) = point_addition (AfOf sorted j) ((incrOf sorted).getD j origin) := by
    intro j hj
    exact scanl_getD_succ (incrOf sorted) origin j (by rw [incrOf_length sorted]; exact hj)
  refine ⟨hx0, ?_, ?_, ?_⟩
  · intro j hj
    have hb := incr_bounds sorted hlab j hj
    rw [hsucc j hj]
    unfold point_addition
    dsimp only
    linarith [hb.1]
  · intro j hj
    have hb := incr_bounds sorted hlab j hj
    rw [hsucc j hj]
    unfold point_addition
    dsimp only
    linarith [hb.2.1]
  · intro j hj
    have hb := incr_bounds sorted hlab j hj
    rw [hsucc j hj]
    unfold point_addition
    dsimp only
    linarith [hb.2.2]

theorem csdOf_length (sorted : List (ℚ × ℚ)) : (csdOf sorted).length = kOf sorted + 1 := by
  unfold csdOf
  rw [List.length_scanl, incrOf_length sorted]

theorem list_eq_range_map_getD : ∀ (l : List Point),
    l = (List.range l.length).map (fun j => l.getD j origin)
  | [] => rfl
  | a :: l => by
    rw [List.length_cons, List.range_succ_eq_map, List.map_cons, List.map_map]
    have h1 : ((fun j => (a :: l).getD j origin) ∘ Nat.succ) = fun j => l.getD j origin := by
      funext j
      simp [List.getD_cons_succ]
    rw [h1, ← list_eq_range_map_getD l]
    rfl

theorem getLastD_eq_getD : ∀ (l : List Point) (d : Point), l ≠ [] →
    l.getLastD d = l.getD (l.length - 1) origin
  | [], d, h => absurd rfl h
  | [a], d, _ => rfl
  | a :: b :: l, d, _ => by
    have ih := getLastD_eq_getD (b :: l) a (by simp)
    calc (a :: b :: l).getLastD d = (b :: l).getLastD a := by rw [List.getLastD_cons]
      _ = (b :: l).getD ((b :: l).length - 1) origin := ih
      _ = (a :: b :: l).getD ((a :: b :: l).length - 1) origin := by
          simp only [List.length_cons, Nat.add_sub_cancel, List.getD_cons_succ]

theorem f1Slopes_length : ∀ (ps st : List Point), (f1Slopes st ps).length = ps.length
  | [], st => rfl
  | p :: ps, st => by
    simp only [f1Slopes, List.length_cons]
    rw [f1Slopes_length ps]

theorem f0Slopes_length : ∀ (ps st : List Point), (f0Slopes st ps).length = ps.length
  | [], st => rfl
  | p :: ps, st => by
    simp only [f0Slopes, List.length_cons]
    rw [f0Slopes_length ps]

theorem bf_zero {Af : ℕ → Point} {k : ℕ} (hcsd : CsdHyp Af k) :
    Bf Af 0 = ((-1 : ℚ), (-1 : ℚ)) := by
  unfold Bf point_subtraction
  rw [hcsd.x0]
  simp [origin]

/-- The head of the reversed `initialize_f1_corners` output is the left
sentinel. -/
theorem init_f1_head {Af : ℕ → Point} {k : ℕ} (hcsd : CsdHyp Af k) (hk : 1 ≤ k) :
    ((init_f1_corners (((-1 : ℚ), (-1 : ℚ)) :: (List.range (k + 1)).map Af)).reverse).headD
      origin = ((-1 : ℚ), (-1 : ℚ)) := by
  have hrange : (List.range (k + 1)).map Af = Af 0 :: (List.range' 1 k).map Af := by
    rw [List.range_eq_range', List.range'_succ]
    simp
  rw [hrange]
  show ((((List.range' 1 k).map Af).foldl
    (fun st p => p :: popWhile2 (fun top next => non_left_angle_turn next top p) st)
    [Af 0, ((-1 : ℚ), (-1 : ℚ))]).reverse).headD origin = ((-1 : ℚ), (-1 : ℚ))
  obtain ⟨k2, rfl⟩ : ∃ k2, k = k2 + 1 := ⟨k - 1, by omega⟩
  rw [List.range'_succ, List.map_cons, List.foldl_cons]
  rw [first_scan_push hcsd hk]
  have hs := scan_fold hcsd k2 1 (le_refl 1) (by omega) _ (sinv_base hcsd hk)
  obtain ⟨h1, h2, hlast, h4⟩ := hs
  rw [reverse_eq_last_cons hlast]
  rfl

theorem getD_reverse_q (l : List ℚ) (j : ℕ) (hj : j < l.length) :
    l.reverse.getD j 0 = l.getD (l.length - 1 - j) 0 := by
  rw [List.getD_eq_getElem _ _ (by simpa using hj), List.getD_eq_getElem _ _ (by omega)]
  rw [List.getElem_reverse]

/-- The key strict bridge between the two envelopes: the chord to the
`(+1, 0)`-shifted point lies strictly below the chord from the
`(-1, -1)`-shifted point (same positive denominator, numerator one smaller). -/
theorem slope_c_lt_slope_b {Af : ℕ → Point} {k : ℕ} (hcsd : CsdHyp Af k) {a b : ℕ}
    (hab : a ≤ b) (hbk : b ≤ k) :
    slope (Af a) (Cf Af b) < slope (Bf Af a) (Af b) := by
  have hx := hcsd.x_le hab hbk
  unfold slope Cf Bf point_addition point_subtraction
  dsimp only
  rw [div_lt_div_iff (by linarith) (by linarith)]
  nlinarith

theorem getD_mono_of_chain (l : List ℚ) (hc : List.Chain' (fun a b : ℚ => a ≤ b) l)
    {i j : ℕ} (hij : i ≤ j) (hj : j < l.length) : l.getD i 0 ≤ l.getD j 0 := by
  rcases eq_or_lt_of_le hij with rfl | hlt
  · exact le_refl _
  · have hp := List.chain'_iff_pairwise.mp hc
    rw [List.getD_eq_getElem _ _ (by omega), List.getD_eq_getElem _ _ hj]
    exact List.pairwise_iff_getElem.mp hp i j (by omega) hj hlt

theorem csdOf_ne_nil (sorted : List (ℚ × ℚ)) : csdOf sorted ≠ [] := by
  have h := csdOf_length sorted
  intro hc
  rw [hc] at h
  simp at h

theorem csdOf_eq_range_map (sorted : List (ℚ × ℚ)) :
    csdOf sorted = (List.range (kOf sorted + 1)).map (AfOf sorted) := by
  have h := list_eq_range_map_getD (csdOf sorted)
  rw [csdOf_length sorted] at h
  exact h

theorem csdOf_last_pt (sorted : List (ℚ × ℚ)) :
    (((csdOf sorted).getLastD origin).1 + 1, ((csdOf sorted).getLastD origin).2) =
      Cf (AfOf sorted) (kOf sorted) := by
  have h := getLastD_eq_getD (csdOf sorted) origin (csdOf_ne_nil sorted)
  rw [csdOf_length sorted] at h
  simp only [Nat.add_sub_cancel] at h
  rw [h]
  unfold Cf point_addition
  show ((AfOf sorted (kOf sorted)).1 + 1, (AfOf sorted (kOf sorted)).2) = _
  simp

theorem kOf_pos (sorted : List (ℚ × ℚ)) (hne : sorted ≠ []) : 1 ≤ kOf sorted := by
  unfold kOf
  rcases sorted with _ | ⟨q, l⟩
  · exact absurd rfl hne
  · have hmem : q.1 ∈ ((q :: l).map Prod.fst).dedup := by
      rw [List.mem_dedup]
      simp
    have := List.length_pos.mpr (List.ne_nil_of_mem hmem)
    omega

/-- `compute_f1` on the concrete fit state, rewritten to the recorded-slopes
form. -/
theorem ivap_F1_eq (sorted : List (ℚ × ℚ)) (hlab : ∀ q ∈ sorted, q.2 = 0 ∨ q.2 = 1) :
    (ivapFitSorted sorted).F1 =
      0 :: f1Slopes ((init_f1_corners (((-1 : ℚ), (-1 : ℚ)) :: csdOf sorted)).reverse)
        ((List.range' 1 (kOf sorted)).map (Bf (AfOf sorted))) := by
  have hcsd := ivap_csd_hyp sorted hlab
  rw [ivapFitSorted_eq]
  show compute_f1 (init_f1_corners ((-1, -1) :: csdOf sorted)) ((-1, -1) :: csdOf sorted)
    (kOf sorted) = _
  unfold compute_f1
  rw [@f1_fold_spec (AfOf sorted) (kOf sorted) (kOf sorted) 0 (by omega)
    (List.replicate (kOf sorted + 1) 0) (((-1 : ℚ), (-1 : ℚ)) :: csdOf sorted)
    ((init_f1_corners (((-1 : ℚ), (-1 : ℚ)) :: csdOf sorted)).reverse)
    (by simp [csdOf_length sorted]) ?hA ?hB]
  case hA =>
    intro j hj1 hj2
    obtain ⟨j2, rfl⟩ : ∃ j2, j = j2 + 1 := ⟨j - 1, by omega⟩
    simp only [List.getD_cons_succ, Nat.add_sub_cancel]
    rfl
  case hB =>
    show ((-1 : ℚ), (-1 : ℚ)) = Bf (AfOf sorted) 0
    rw [bf_zero hcsd]
  rw [foldSet_eq _ _ _ (by
    simp only [List.length_replicate, f1Slopes_length, List.length_map]
    rw [List.length_range']
    omega)]
  have hlen : (f1Slopes ((init_f1_corners (((-1 : ℚ), (-1 : ℚ)) :: csdOf sorted)).reverse)
      ((List.range' (0 + 1) (kOf sorted)).map (Bf (AfOf sorted)))).length = kOf sorted := by
    rw [f1Slopes_length, List.length_map, List.length_range']
  rw [hlen]
  simp only [List.take_replicate, List.drop_replicate]
  rw [show kOf sorted + 1 - (1 + kOf sorted) = 0 from by omega]
  simp

theorem getD_append_left_pt : ∀ (l l2 : List Point) (j : ℕ), j < l.length →
    (l ++ l2).getD j origin = l.getD j origin
  | [], l2, j, h => by simp at h
  | a :: l, l2, 0, _ => rfl
  | a :: l, l2, j + 1, h => by
    show (a :: (l ++ l2)).getD (j + 1) origin = (a :: l).getD (j + 1) origin
    simp only [List.getD_cons_succ]
    exact getD_append_left_pt l l2 j (by simpa using h)

theorem getD_append_singleton_pt : ∀ (l : List Point) (x : Point),
    (l ++ [x]).getD l.length origin = x
  | [], x => rfl
  | a :: l, x => by
    show (a :: (l ++ [x])).getD (l.length + 1) origin = x
    simp only [List.getD_cons_succ]
    exact getD_append_singleton_pt l x

/-- `compute_f0` on the concrete fit state, rewritten to the recorded-slopes
form. -/
theorem ivap_F0_eq (sorted : List (ℚ × ℚ)) (hlab : ∀ q ∈ sorted, q.2 = 0 ∨ q.2 = 1) :
    (ivapFitSorted sorted).F0 =
      0 :: (f0Slopes ((init_f0_corners (csdOf sorted ++
          [(((csdOf sorted).getLastD origin).1 + 1,
            ((csdOf sorted).getLastD origin).2)])).reverse)
        (((List.range (kOf sorted)).map (Cf (AfOf sorted))).reverse)).reverse := by
  rw [ivapFitSorted_eq]
  show compute_f0 (init_f0_corners (csdOf sorted ++
      [(((csdOf sorted).getLastD origin).1 + 1, ((csdOf sorted).getLastD origin).2)]))
    (csdOf sorted ++
      [(((csdOf sorted).getLastD origin).1 + 1, ((csdOf sorted).getLastD origin).2)])
    (kOf sorted) = _
  unfold compute_f0
  rw [@f0_fold_spec (AfOf sorted) (kOf sorted) (kOf sorted) (le_refl _)
    (List.replicate (kOf sorted + 1) 0)
    (csdOf sorted ++
      [(((csdOf sorted).getLastD origin).1 + 1, ((csdOf sorted).getLastD origin).2)])
    ((init_f0_corners (csdOf sorted ++
      [(((csdOf sorted).getLastD origin).1 + 1,
        ((csdOf sorted).getLastD origin).2)])).reverse)
    (by simp [csdOf_length sorted]) ?hA ?hC]
  case hA =>
    intro j hj
    rw [getD_append_left_pt _ _ j (by rw [csdOf_length sorted]; omega)]
    rfl
  case hC =>
    rw [show kOf sorted + 1 = (csdOf sorted).length from (csdOf_length sorted).symm,
      getD_append_singleton_pt]
    exact csdOf_last_pt sorted
  rw [foldSetDown_eq _ _ _ (by
    simp only [f0Slopes_length, List.length_reverse, List.length_map, List.length_range]
    omega) (by simp)]
  simp only [List.take_replicate, List.drop_replicate]
  rw [show kOf sorted + 1 -
      (f0Slopes ((init_f0_corners (csdOf sorted ++
        [(((csdOf sorted).getLastD origin).1 + 1,
          ((csdOf sorted).getLastD origin).2)])).reverse)
        (((List.range (kOf sorted)).map (Cf (AfOf sorted))).reverse)).length = 1 from by
    simp only [f0Slopes_length, List.length_reverse, List.length_map, List.length_range]
    omega]
  rw [show kOf sorted + 1 - (kOf sorted + 1) = 0 from by omega]
  simp

/-- Master envelope theorem for a fitted IVAP: both stored arrays have length
`k + 1`, both are non-decreasing, `F0` is pointwise at most `F1`, `F0` is
nonnegative and `F1` is bounded by 1. -/
theorem ivap_envelopes (sorted : List (ℚ × ℚ)) (hne : sorted ≠ [])
    (hlab : ∀ q ∈ sorted, q.2 = 0 ∨ q.2 = 1) :
    (ivapFitSorted sorted).F0.length = kOf sorted + 1 ∧
    (ivapFitSorted sorted).F1.length = kOf sorted + 1 ∧
    List.Chain' (fun a b : ℚ => a ≤ b) (ivapFitSorted sorted).F0 ∧
    List.Chain' (fun a b : ℚ => a ≤ b) (ivapFitSorted sorted).F1 ∧
    (∀ i, i ≤ kOf sorted →
      (ivapFitSorted sorted).F0.getD i 0 ≤ (ivapFitSorted sorted).F1.getD i 0) ∧
    (∀ i, i ≤ kOf sorted →
      0 ≤ (ivapFitSorted sorted).F0.getD i 0 ∧ (ivapFitSorted sorted).F1.getD i 0 ≤ 1) := by
  have hcsd := ivap_csd_hyp sorted hlab
  have hk1 : 1 ≤ kOf sorted := kOf_pos sorted hne
  have hInv1 := inv1_init hcsd hk1
  rw [← csdOf_eq_range_map sorted] at hInv1
  have hhead1 := init_f1_head hcsd hk1
  rw [← csdOf_eq_range_map sorted] at hhead1
  have hprops1 := f1_props hcsd (kOf sorted) 1 (le_refl 1) (by omega)
    ((init_f1_corners (((-1 : ℚ), (-1 : ℚ)) :: csdOf sorted)).reverse) hInv1
    ⟨0, by omega, by rw [hhead1, bf_zero hcsd]⟩
  have hInv0 := inv0_init hcsd hk1
  rw [← csdOf_eq_range_map sorted, ← csdOf_last_pt sorted] at hInv0
  have hprops0 := f0_props hcsd (kOf sorted) (le_refl _)
    ((init_f0_corners (csdOf sorted ++
      [(((csdOf sorted).getLastD origin).1 + 1,
        ((csdOf sorted).getLastD origin).2)])).reverse) hInv0
  rw [ivap_F1_eq sorted hlab, ivap_F0_eq sorted hlab]
  set σs1 := f1Slopes ((init_f1_corners (((-1 : ℚ), (-1 : ℚ)) :: csdOf sorted)).reverse)
    ((List.range' 1 (kOf sorted)).map (Bf (AfOf sorted))) with hσ1def
  set σs0 := f0Slopes ((init_f0_corners (csdOf sorted ++
      [(((csdOf sorted).getLastD origin).1 + 1,
        ((csdOf sorted).getLastD origin).2)])).reverse)
    (((List.range (kOf sorted)).map (Cf (AfOf sorted))).reverse) with hσ0def
  obtain ⟨hlen1, hchain1, hgood1⟩ := hprops1
  obtain ⟨hlen0, hchain0, hgood0⟩ := hprops0
  refine ⟨?_, ?_, ?_, ?_, ?_, ?_⟩
  · simp [hlen0]
  · simp [hlen1]
  · rw [List.chain'_cons']
    constructor
    · intro z hz
      have hlenr : σs0.reverse.length = kOf sorted := by simp [hlen0]
      cases hσ : σs0.reverse with
      | nil =>
        rw [hσ] at hlenr
        simp at hlenr
        omega
      | cons w rest =>
        rw [hσ] at hz
        simp only [List.head?_cons, Option.mem_def, Option.some.injEq] at hz
        subst hz
        have hwv : σs0.reverse.getD 0 0 = w := by
          rw [hσ]
          rfl
        rw [← hwv, getD_reverse_q σs0 0 (by rw [hlen0]; omega), hlen0]
        have hg := hgood0 (kOf sorted - 1 - 0) (by omega)
        rw [show kOf sorted - (kOf sorted - 1 - 0) = 1 from by omega] at hg
        exact hg.1
    · rw [List.chain'_reverse]
      exact hchain0
  · rw [List.chain'_cons']
    constructor
    · intro z hz
      have hlenr := hlen1
      cases hσ : σs1 with
      | nil =>
        rw [hσ] at hlenr
        simp at hlenr
        omega
      | cons w rest =>
        rw [hσ] at hz
        simp only [List.head?_cons, Option.mem_def, Option.some.injEq] at hz
        subst hz
        have hg := hgood1 0 (by omega)
        rw [hσ] at hg
        simp only [List.getD_cons_zero] at hg
        exact le_of_lt hg.1
    · exact hchain1
  · intro i hi
    cases i with
    | zero =>
      simp only [List.getD_cons_zero]
      exact le_refl _
    | succ i2 =>
      simp only [List.getD_cons_succ]
      have h1 := hgood1 i2 (by omega)
      rw [show (1 : ℕ) + i2 = i2 + 1 from by omega] at h1
      have hrev : σs0.reverse.getD i2 0 = σs0.getD (kOf sorted - 1 - i2) 0 := by
        rw [getD_reverse_q σs0 i2 (by rw [hlen0]; omega), hlen0]
      rw [hrev]
      have h0 := hgood0 (kOf sorted - 1 - i2) (by omega)
      rw [show kOf sorted - (kOf sorted - 1 - i2) = i2 + 1 from by omega] at h0
      obtain ⟨h0n, a, hat, hub⟩ := h0
      obtain ⟨h1p, h1le, b, htb, hbk, hlb⟩ := h1
      have hbridge := slope_c_lt_slope_b hcsd (show a ≤ b by omega) hbk
      have hu := hub b htb hbk
      have hl := hlb a hat
      linarith
  · intro i hi
    cases i with
    | zero =>
      simp only [List.getD_cons_zero]
      norm_num
    | succ i2 =>
      simp only [List.getD_cons_succ]
      have h1 := hgood1 i2 (by omega)
      rw [show (1 : ℕ) + i2 = i2 + 1 from by omega] at h1
      have hrev : σs0.reverse.getD i2 0 = σs0.getD (kOf sorted - 1 - i2) 0 := by
        rw [getD_reverse_q σs0 i2 (by rw [hlen0]; omega), hlen0]
      rw [hrev]
      have h0 := hgood0 (kOf sorted - 1 - i2) (by omega)
      rw [show kOf sorted - (kOf sorted - 1 - i2) = i2 + 1 from by omega] at h0
      exact ⟨h0.1, h1.2.1⟩

theorem countP_le_countP (p q : ℚ → Bool) : ∀ (l : List ℚ),
    (∀ x ∈ l, p x = true → q x = true) → l.countP p ≤ l.countP q
  | [], _ => le_refl _
  | a :: l, h => by
    have ih := countP_le_countP p q l (fun x hx => h x (List.mem_cons_of_mem a hx))
    rw [List.countP_cons, List.countP_cons]
    by_cases hp : p a = true
    · rw [hp, h a (List.mem_cons_self a l) hp]
      simpa using ih
    · have hp2 : p a = false := by
        revert hp
        cases p a <;> simp
      rw [hp2]
      cases hq : q a
      · simpa using ih
      · simp
        omega

/-- A successful `ivapFit` call is `ivapFitSorted` on a nonempty list of
pairs whose labels are 0 or 1. -/
theorem ivapFit_ok_shape (y scores : List ℚ) (hlen : y.length = scores.length)
    (hn : 1 ≤ y.length) (c : FittedIVAP) (h : ivapFit y scores = .ok c) :
    ∃ sorted : List (ℚ × ℚ), sorted ≠ [] ∧ (∀ q ∈ sorted, q.2 = 0 ∨ q.2 = 1) ∧
      c = ivapFitSorted sorted := by
  unfold ivapFit at h
  by_cases hd : y.dedup.length ≤ 2
  case neg =>
    rw [if_neg hd] at h
    exact absurd h (by simp)
  rw [if_pos hd] at h
  injection h with h
  refine ⟨List.insertionSort pairLe (scores.zip (y.map mapLabel)), ?_, ?_, h.symm⟩
  · have hlen2 : (List.insertionSort pairLe (scores.zip (y.map mapLabel))).length =
        y.length := by
      rw [(List.perm_insertionSort pairLe _).length_eq, List.length_zip, List.length_map]
      omega
    intro hc
    rw [hc] at hlen2
    simp only [List.length_nil] at hlen2
    omega
  · intro q hq
    obtain ⟨qa, qb⟩ := q
    have hq2 := (List.perm_insertionSort pairLe _).mem_iff.mp hq
    have hmem := (List.of_mem_zip hq2).2
    obtain ⟨v, hv, hveq⟩ := List.mem_map.mp hmem
    dsimp only
    rw [← hveq]
    unfold mapLabel
    by_cases hv1 : v = 1
    · rw [if_pos hv1]
      exact Or.inr rfl
    · rw [if_neg hv1]
      exact Or.inl rfl

/-! ### Claims C1 and C3: envelope monotonicity and interval containment -/

/-- C1: for every fitted IVAP (fit on any calibration set of n ≥ 1
(score, label) pairs with at most 2 distinct labels), the stored arrays `F0`
and `F1` are non-decreasing sequences over their (common) index range, and
`F0[i] ≤ F1[i]` holds at every valid index `i`. -/
theorem claim1_envelopes (y scores : List ℚ) (hlen : y.length = scores.length)
    (hn : 1 ≤ y.length) (c : FittedIVAP) (h : ivapFit y scores = .ok c) :
    List.Chain' (fun a b : ℚ => a ≤ b) c.F0 ∧
    List.Chain' (fun a b : ℚ => a ≤ b) c.F1 ∧
    c.F0.length = c.F1.length ∧
    ∀ i, i < c.F0.length → c.F0.getD i 0 ≤ c.F1.getD i 0 := by
  obtain ⟨sorted, hne, hlab, rfl⟩ := ivapFit_ok_shape y scores hlen hn c h
  obtain ⟨hl0, hl1, hc0, hc1, hle, hbd⟩ := ivap_envelopes sorted hne hlab
  refine ⟨hc0, hc1, by rw [hl0, hl1], ?_⟩
  intro i hi
  rw [hl0] at hi
  exact hle i (by omega)

theorem claim1_witness :
    List.Chain' (fun a b : ℚ => a ≤ b) [(0 : ℚ), 0, 1/3, 1/2] ∧
    List.Chain' (fun a b : ℚ => a ≤ b) [(0 : ℚ), 1/2, 2/3, 1] ∧
    ([(0 : ℚ), 0, 1/3, 1/2] : List ℚ).length = ([(0 : ℚ), 1/2, 2/3, 1] : List ℚ).length ∧
    (∀ i, i < ([(0 : ℚ), 0, 1/3, 1/2] : List ℚ).length →
      List.getD [(0 : ℚ), 0, 1/3, 1/2] i 0 ≤ List.getD [(0 : ℚ), 1/2, 2/3, 1] i 0) :=
  claim1_envelopes [0, 0, 1, 1] [(1 : ℚ)/10, 2/10, 2/10, 9/10] (by rfl) (by norm_num)
    ⟨3, [(1 : ℚ)/10, 1/5, 9/10], [0, 0, 1/3, 1/2], [0, 1/2, 2/3, 1]⟩ (by rfl)

/-- C3: for every fitted IVAP and every test score `s`, the point probability
returned by `predict_proba` lies in the closed interval `[p0, p1]` returned by
`predict_intervall` for the same score. -/
theorem claim3_interval_containment (y scores : List ℚ) (hlen : y.length = scores.length)
    (hn : 1 ≤ y.length) (c : FittedIVAP) (h : ivapFit y scores = .ok c) (s : ℚ) :
    (ivapPredictIntervall1 c s).1 ≤ ivapPredictProba1 c s ∧
    ivapPredictProba1 c s ≤ (ivapPredictIntervall1 c s).2 := by
  obtain ⟨sorted, hne, hlab, rfl⟩ := ivapFit_ok_shape y scores hlen hn c h
  obtain ⟨hl0, hl1, hc0, hc1, hle, hbd⟩ := ivap_envelopes sorted hne hlab
  have hk1 : 1 ≤ kOf sorted := kOf_pos sorted hne
  have hue : (ivapFitSorted sorted).unique_elements = (sorted.map Prod.fst).dedup := rfl
  have hue_len : (ivapFitSorted sorted).unique_elements.length = kOf sorted := rfl
  set c := ivapFitSorted sorted with hcdef
  set lower := searchsorted_left c.unique_elements s with hlow_def
  set upper := searchsorted_right c.unique_elements.dropLast s + 1 with hup_def
  have hlow : lower ≤ kOf sorted := by
    rw [hlow_def]
    unfold searchsorted_left
    calc c.unique_elements.countP (fun x => decide (x < s)) ≤ c.unique_elements.length :=
        List.countP_le_length _
      _ = kOf sorted := hue_len
  have hup : upper ≤ kOf sorted := by
    rw [hup_def]
    unfold searchsorted_right
    have h1 : c.unique_elements.dropLast.countP (fun x => decide (x ≤ s)) ≤
        c.unique_elements.dropLast.length := List.countP_le_length _
    rw [List.length_dropLast, hue_len] at h1
    omega
  have hlu : lower ≤ upper := by
    rw [hlow_def, hup_def]
    unfold searchsorted_left searchsorted_right
    have hne2 : c.unique_elements ≠ [] := by
      intro hcn
      have h2 := hue_len
      rw [hcn] at h2
      simp at h2
      omega
    have hsplit := List.dropLast_append_getLast hne2
    have h3 : c.unique_elements.countP (fun x => decide (x < s)) =
        c.unique_elements.dropLast.countP (fun x => decide (x < s)) +
          [c.unique_elements.getLast hne2].countP (fun x => decide (x < s)) := by
      conv_lhs => rw [← hsplit]
      rw [List.countP_append]
    have h4 : c.unique_elements.dropLast.countP (fun x => decide (x < s)) ≤
        c.unique_elements.dropLast.countP (fun x => decide (x ≤ s)) := by
      refine countP_le_countP _ _ _ ?_
      intro x hx hpx
      simp only [decide_eq_true_eq] at hpx ⊢
      linarith
    have h5 : [c.unique_elements.getLast hne2].countP (fun x => decide (x < s)) ≤ 1 := by
      have := List.countP_le_length (l := [c.unique_elements.getLast hne2])
        (p := fun x => decide (x < s))
      simpa using this
    omega
  have hp0p1 : c.F0.getD lower 0 ≤ c.F1.getD upper 0 := by
    calc c.F0.getD lower 0 ≤ c.F0.getD upper 0 :=
        getD_mono_of_chain c.F0 hc0 hlu (by rw [hl0]; omega)
      _ ≤ c.F1.getD upper 0 := hle upper hup
  have h0n : 0 ≤ c.F0.getD lower 0 := (hbd lower hlow).1
  have h0le1 : c.F0.getD lower 0 ≤ 1 := by
    calc c.F0.getD lower 0 ≤ c.F1.getD lower 0 := hle lower hlow
      _ ≤ 1 := (hbd lower hlow).2
  unfold ivapPredictProba1 ivapPredictIntervall1
  rw [← hlow_def, ← hup_def]
  dsimp only
  set p0 := c.F0.getD lower 0
  set p1 := c.F1.getD upper 0
  have hden : 0 < 1 - p0 + p1 := by linarith
  constructor
  · rw [le_div_iff hden]
    nlinarith [mul_nonneg (sub_nonneg.mpr hp0p1) (sub_nonneg.mpr h0le1)]
  · rw [div_le_iff hden]
    nlinarith [mul_nonneg (by linarith : (0 : ℚ) ≤ p1) (sub_nonneg.mpr hp0p1)]

theorem claim3_witness :
    (ivapPredictIntervall1 ⟨3, [(1 : ℚ)/10, 1/5, 9/10], [0, 0, 1/3, 1/2], [0, 1/2, 2/3, 1]⟩
        ((1 : ℚ)/5)).1 ≤
      ivapPredictProba1 ⟨3, [(1 : ℚ)/10, 1/5, 9/10], [0, 0, 1/3, 1/2], [0, 1/2, 2/3, 1]⟩
        ((1 : ℚ)/5) ∧
    ivapPredictProba1 ⟨3, [(1 : ℚ)/10, 1/5, 9/10], [0, 0, 1/3, 1/2], [0, 1/2, 2/3, 1]⟩
        ((1 : ℚ)/5) ≤
      (ivapPredictIntervall1 ⟨3, [(1 : ℚ)/10, 1/5, 9/10], [0, 0, 1/3, 1/2], [0, 1/2, 2/3, 1]⟩
        ((1 : ℚ)/5)).2 :=
  claim3_interval_containment [0, 0, 1, 1] [(1 : ℚ)/10, 2/10, 2/10, 9/10] (by rfl)
    (by norm_num) ⟨3, [(1 : ℚ)/10, 1/5, 9/10], [0, 0, 1/3, 1/2], [0, 1/2, 2/3, 1]⟩ (by rfl)
    ((1 : ℚ)/5)

end

end VennAbers
